import Mathlib

/-!
# Verification of the NEURO ingestion service core

Shallow embedding of the Rust sources under `services/ingestion/src` and
proofs of the specification claims about them.  Strings are modelled as
`List Char` (or `String`) with byte lengths computed through `Char.utf8Size`;
machine counters are modelled as `Nat` (with an explicit `% 2 ^ 64` where the
source uses a `u64` addition); wall-clock instants are explicit `Nat`
parameters threaded through the state-passing translation of the stateful
code.  Floating-point quantities (sentiment scores, jittered delays) are
modelled over `ℚ`; the concrete values appearing in the claims are exactly
representable in both `f64` and `ℚ`.
-/

namespace Neuro

/-! ## String helpers (models of Rust `str` operations, ASCII-faithful) -/

/-- Model of Rust `str::contains`: `needle` occurs as a contiguous run in `hay`. -/
def containsSub : List Char → List Char → Bool
  | [], needle => needle.isEmpty
  | c :: t, needle => needle.isPrefixOf (c :: t) || containsSub t needle

/-- Model of Rust `str::to_lowercase` (ASCII range). -/
def lowerStr (s : List Char) : List Char := s.map Char.toLower

/-- Model of Rust `str::split_whitespace`: split on whitespace, dropping
empty chunks. -/
def splitWs (s : List Char) : List (List Char) :=
  (s.splitOnP (·.isWhitespace)).filter (· ≠ [])

/-- Model of Rust `str::trim_matches(p)`: strip matching characters from both
ends. -/
def trimMatches (p : Char → Bool) (s : List Char) : List Char :=
  ((s.dropWhile p).reverse.dropWhile p).reverse

/-- Rust `str::len` counts UTF-8 bytes, not characters. -/
def utf8Len (s : List Char) : Nat := (s.map Char.utf8Size).sum

/-! ## Enrich stage (`pipeline/stages.rs`, `EnrichStage`) -/

/-- One iteration of the loop body of `EnrichStage::extract_tickers`
(stages.rs:168-174), ASCII tables: a word contributes a ticker when it starts
with `'$'`, has byte length `> 1`, and after stripping non-alphanumeric
characters from the ends the remainder is non-empty with byte length `≤ 10`;
the contribution is the upper-cased remainder.  This is `tickerOfWordU` below
at `asciiTables` (exact on ASCII text, where trimming and upper-casing are
single-character); the source's `char::is_alphanumeric` / `str::to_uppercase`
are Unicode table lookups, abstracted there. -/
def tickerOfWord : List Char → Option (List Char)
  | '$' :: c :: rest =>
    if trimMatches (fun ch => !ch.isAlphanum) (c :: rest) ≠ [] ∧
        utf8Len (trimMatches (fun ch => !ch.isAlphanum) (c :: rest)) ≤ 10 then
      some ((trimMatches (fun ch => !ch.isAlphanum) (c :: rest)).map Char.toUpper)
    else none
  | _ => none

/-- Model of `EnrichStage::extract_tickers` (stages.rs:165-179), ASCII
tables (used below only at all-ASCII inputs; the table-faithful version is
`extract_tickersU`): collect the tickers of all whitespace-separated words,
`Vec::sort` them (stable, lexicographic) and `Vec::dedup` (remove consecutive
duplicates, modelled by `List.destutter (· ≠ ·)`). -/
def extract_tickers (text : List Char) : List (List Char) :=
  (List.insertionSort (· ≤ ·) ((splitWs text).filterMap tickerOfWord)).destutter (· ≠ ·)

/-- The Unicode character tables that `extract_tickers` consumes.  Rust
`char::is_alphanumeric` (Alphabetic, or a number General_Category),
`char::is_whitespace` (the White_Space property) and the one-to-many
`char::to_uppercase` (full uppercasing per UnicodeData + SpecialCasing) are
lookups into the Unicode Character Database, so the faithful embedding takes
the tables as explicit parameters. -/
structure CharTables where
  isAlphanumeric : Char → Bool
  isWhitespace : Char → Bool
  toUppercase : Char → List Char

/-- `str::split_whitespace` with the whitespace table explicit. -/
def splitWsU (U : CharTables) (s : List Char) : List (List Char) :=
  (s.splitOnP U.isWhitespace).filter (· ≠ [])

/-- Loop body of `EnrichStage::extract_tickers` (stages.rs:168-174) over
explicit Unicode tables: a word contributes when it starts with `'$'` and has
byte length `> 1` (equivalently, it has a second character); `word[1..]` is
trimmed of non-alphanumeric characters at both ends, and the remainder must
be non-empty with **byte** length `≤ 10` (`str::len` counts UTF-8 bytes);
the contribution is `remainder.to_uppercase()`, where every character maps to
its possibly multi-character uppercase expansion. -/
def tickerOfWordU (U : CharTables) : List Char → Option (List Char)
  | '$' :: c :: rest =>
    if trimMatches (fun ch => !U.isAlphanumeric ch) (c :: rest) ≠ [] ∧
        utf8Len (trimMatches (fun ch => !U.isAlphanumeric ch) (c :: rest)) ≤ 10 then
      some (((trimMatches (fun ch => !U.isAlphanumeric ch) (c :: rest)).map U.toUppercase).flatten)
    else none
  | _ => none

/-- `EnrichStage::extract_tickers` (stages.rs:165-179) over explicit Unicode
tables: collect the tickers of all whitespace-separated words, `Vec::sort`
and `Vec::dedup`. -/
def extract_tickersU (U : CharTables) (text : List Char) : List (List Char) :=
  (List.insertionSort (· ≤ ·) ((splitWsU U text).filterMap (tickerOfWordU U))).destutter (· ≠ ·)

/-- The complete Unicode White_Space table (PropList.txt); Rust
`char::is_whitespace` is exactly this property. -/
def rustIsWhitespace (c : Char) : Bool :=
  decide (c.toNat ∈ [0x9, 0xA, 0xB, 0xC, 0xD, 0x20, 0x85, 0xA0, 0x1680,
    0x2000, 0x2001, 0x2002, 0x2003, 0x2004, 0x2005, 0x2006, 0x2007, 0x2008,
    0x2009, 0x200A, 0x2028, 0x2029, 0x202F, 0x205F, 0x3000])

/-- Rust `char::is_alphanumeric` restricted to ASCII plus U+0390: on ASCII it
agrees with `Char.isAlphanum`, and U+0390 (GREEK SMALL LETTER IOTA WITH
DIALYTIKA AND TONOS, General_Category Ll, hence Alphabetic) is
alphanumeric. -/
def isAlnum390 (c : Char) : Bool :=
  c.isAlphanum || decide (c.toNat = 0x390)

/-- Rust `char::to_uppercase` restricted to ASCII plus U+0390: ASCII
characters map to their single-character uppercase, and U+0390 carries the
full uppercase expansion U+0399 U+0308 U+0301 (GREEK CAPITAL LETTER IOTA,
COMBINING DIAERESIS, COMBINING ACUTE ACCENT) recorded in SpecialCasing.txt —
the expanding example used by the Rust documentation of `to_uppercase`
itself. -/
def toUpper390 (c : Char) : List Char :=
  if c.toNat = 0x390 then [Char.ofNat 0x399, Char.ofNat 0x308, Char.ofNat 0x301]
  else [c.toUpper]

/-- The Unicode tables restricted to ASCII plus U+0390: equal to the real
Unicode Character Database tables on every character of the inputs they are
applied to below. -/
def tables390 : CharTables :=
  { isAlphanumeric := isAlnum390
    isWhitespace := rustIsWhitespace
    toUppercase := toUpper390 }

/-- The tables specialised to the ASCII fragment, recovering the ASCII model
above. -/
def asciiTables : CharTables :=
  { isAlphanumeric := Char.isAlphanum
    isWhitespace := Char.isWhitespace
    toUppercase := fun c => [c.toUpper] }

/-- The stopword list of `EnrichStage::detect_language` (stages.rs:184). -/
def englishWords : List (List Char) :=
  ["the", "is", "at", "which", "on", "for", "and", "to"].map String.toList

/-- Model of `EnrichStage::detect_language` (stages.rs:181-192).  Note the
source counts stopwords by *substring containment* (`lower.contains(*w)`),
not by token matching. -/
def detect_language (text : List Char) : List Char :=
  let lower := lowerStr text
  let count := (englishWords.filter (fun w => containsSub lower w)).length
  if 2 ≤ count then "en".toList else "unknown".toList

/-- Positive lexicon of `EnrichStage::simple_sentiment` (stages.rs:198). -/
def positiveWords : List (List Char) :=
  ["good", "great", "excellent", "bullish", "moon", "pump", "up", "buy", "long"].map String.toList

/-- Negative lexicon of `EnrichStage::simple_sentiment` (stages.rs:199). -/
def negativeWords : List (List Char) :=
  ["bad", "terrible", "bearish", "dump", "down", "sell", "short", "crash"].map String.toList

/-- Model of `EnrichStage::simple_sentiment` (stages.rs:194-210): counts use
substring containment; the score is `(pos − neg) / (pos + neg)`, and `0` when
both counts are zero. -/
def simple_sentiment (text : List Char) : ℚ :=
  let lower := lowerStr text
  let pos : ℤ := ((positiveWords.filter (fun w => containsSub lower w)).length : ℤ)
  let neg : ℤ := ((negativeWords.filter (fun w => containsSub lower w)).length : ℤ)
  if pos + neg = 0 then 0 else ((pos - neg : ℤ) : ℚ) / ((pos + neg : ℤ) : ℚ)

/-- `IngestionDataType` (schemas/ingestion_event.rs:25-36). -/
inductive IngestionDataType
  | tokenData | marketData | transaction | block | news | social
  | price | liquidity | holderData | contractEvent
deriving DecidableEq

/-- Model of `EnrichStage::categorize` (stages.rs:212-221). -/
def categorize : IngestionDataType → List Char
  | .news => "news".toList
  | .social => "social".toList
  | .marketData => "market".toList
  | .tokenData => "token".toList
  | .transaction => "transaction".toList
  | _ => "other".toList

/-- A payload value (`serde_json::Value`), restricted to what the enrich
stage inspects: `as_str` succeeds exactly on JSON strings. -/
inductive JVal
  | str (s : List Char)
  | other
deriving DecidableEq

/-- Model of `serde_json::Value::as_str`. -/
def JVal.asStr : JVal → Option (List Char)
  | .str s => some s
  | .other => none

/-- Model of `HashMap::get` on the event payload (keys are unique). -/
def payloadGet (p : List (String × JVal)) (k : String) : Option JVal :=
  (p.find? (fun kv => kv.1 == k)).map (·.2)

/-- `EnrichmentData` (pipeline/mod.rs), the fields the enrich stage fills. -/
structure EnrichmentData where
  sentiment_score : Option ℚ
  entity_tags : List (List Char)
  related_tickers : List (List Char)
  language : Option (List Char)
  category : Option (List Char)
deriving DecidableEq

/-- Model of the enrichment computed by `EnrichStage::process`
(stages.rs:226-258): text is taken from `payload["content"]`, else
`payload["title"]`, else `payload["description"]`, else `""`; the
`EnrichmentData` fields are filled from the helpers above. -/
def enrichEvent (payload : List (String × JVal)) (dt : IngestionDataType) : EnrichmentData :=
  let text := ((((payloadGet payload "content").orElse
      (fun _ => payloadGet payload "title")).orElse
      (fun _ => payloadGet payload "description")).bind JVal.asStr).getD []
  { sentiment_score := some (simple_sentiment text)
    entity_tags := []
    related_tickers := extract_tickers text
    language := some (detect_language text)
    category := some (categorize dt) }

/-! ## Circuit breaker (`circuit_breaker.rs`)

The stateful Rust struct is translated by explicit state passing; an
`Instant` is a `Nat` (nanoseconds since an arbitrary origin) supplied by the
caller as the current time. -/

/-- `CircuitState` (circuit_breaker.rs:16-23). -/
inductive CircuitState
  | Closed | Open | HalfOpen
deriving DecidableEq

/-- `CircuitBreakerConfig` (circuit_breaker.rs:27-36). -/
structure CircuitBreakerConfig where
  failure_threshold : Nat
  open_duration : Nat
  success_threshold : Nat
  half_open_max_requests : Nat
deriving DecidableEq

/-- The mutable fields of `CircuitBreaker` (circuit_breaker.rs:50-61). -/
structure CircuitBreaker where
  config : CircuitBreakerConfig
  state : CircuitState
  failure_count : Nat
  success_count : Nat
  half_open_requests : Nat
  last_failure_time : Option Nat
  total_failures : Nat
  total_successes : Nat
  trips : Nat
deriving DecidableEq

/-- `CircuitBreaker::new` (circuit_breaker.rs:65-78). -/
def CircuitBreaker.new (config : CircuitBreakerConfig) : CircuitBreaker :=
  { config := config, state := .Closed, failure_count := 0, success_count := 0
    half_open_requests := 0, last_failure_time := none
    total_failures := 0, total_successes := 0, trips := 0 }

/-- `CircuitBreaker::try_half_open_request` (circuit_breaker.rs:141-159):
`fetch_add` then compare; on denial the `fetch_sub` restores the counter. -/
def CircuitBreaker.try_half_open_request (cb : CircuitBreaker) : Bool × CircuitBreaker :=
  if cb.half_open_requests < cb.config.half_open_max_requests then
    (true, { cb with half_open_requests := cb.half_open_requests + 1 })
  else
    (false, cb)

/-- `CircuitBreaker::allow_request` (circuit_breaker.rs:109-138), with the
current instant `now` passed explicitly (`last_failure.elapsed()` is
`now - last_failure`). -/
def CircuitBreaker.allow_request (now : Nat) (cb : CircuitBreaker) : Bool × CircuitBreaker :=
  match cb.state with
  | .Closed => (true, cb)
  | .Open =>
    match cb.last_failure_time with
    | some lastFailure =>
      if cb.config.open_duration ≤ now - lastFailure then
        CircuitBreaker.try_half_open_request
          { cb with state := .HalfOpen, half_open_requests := 0, success_count := 0 }
      else (false, cb)
    | none => (false, cb)
  | .HalfOpen => CircuitBreaker.try_half_open_request cb

/-- `CircuitBreaker::record_success` (circuit_breaker.rs:162-199). -/
def CircuitBreaker.record_success (cb : CircuitBreaker) : CircuitBreaker :=
  let cb := { cb with total_successes := cb.total_successes + 1 }
  match cb.state with
  | .Closed => { cb with failure_count := 0 }
  | .HalfOpen =>
    let successes := cb.success_count + 1
    if cb.config.success_threshold ≤ successes then
      { cb with state := .Closed, failure_count := 0, success_count := 0 }
    else
      { cb with success_count := successes }
  | .Open => { cb with state := .Closed, failure_count := 0 }

/-- `CircuitBreaker::record_failure` (circuit_breaker.rs:202-244).  The
failure instant is stamped unconditionally *before* the state match
(`*self.last_failure_time.write() = Some(Instant::now())`, line 204). -/
def CircuitBreaker.record_failure (now : Nat) (cb : CircuitBreaker) : CircuitBreaker :=
  let cb := { cb with total_failures := cb.total_failures + 1, last_failure_time := some now }
  match cb.state with
  | .Closed =>
    let failures := cb.failure_count + 1
    if cb.config.failure_threshold ≤ failures then
      { cb with state := .Open, failure_count := failures, trips := cb.trips + 1 }
    else
      { cb with failure_count := failures }
  | .HalfOpen =>
    { cb with state := .Open, trips := cb.trips + 1, success_count := 0 }
  | .Open => cb

/-! ## Checkpoints (`checkpoint.rs`) -/

/-- `SourceCheckpoint` (checkpoint.rs:20-38).  Timestamps are `Nat`;
`total_items_fetched` is a `u64` and `last_batch_count` a `u32`. -/
structure SourceCheckpoint where
  source_id : String
  last_fetch_at : Nat
  cursor : Option String
  last_batch_count : Nat
  total_items_fetched : Nat
  last_error : Option String
  error_count : Nat
deriving DecidableEq

/-- `SourceCheckpoint::new` (checkpoint.rs:41-52); `now` models `Utc::now()`. -/
def SourceCheckpoint.new (source_id : String) (now : Nat) : SourceCheckpoint :=
  { source_id := source_id, last_fetch_at := now, cursor := none, last_batch_count := 0
    total_items_fetched := 0, last_error := none, error_count := 0 }

/-- `SourceCheckpoint::record_success` (checkpoint.rs:55-62).  The `u64`
addition `total_items_fetched += batch_count as u64` is modelled with an
explicit `% 2 ^ 64`. -/
def SourceCheckpoint.record_success (now : Nat) (batch_count : Nat) (cursor : Option String)
    (c : SourceCheckpoint) : SourceCheckpoint :=
  { c with last_fetch_at := now, last_batch_count := batch_count
           total_items_fetched := (c.total_items_fetched + batch_count) % 2 ^ 64
           cursor := cursor, last_error := none, error_count := 0 }

/-- `SourceCheckpoint::record_error` (checkpoint.rs:65-68), wrapping the
`u32` counter. -/
def SourceCheckpoint.record_error (error : String) (c : SourceCheckpoint) : SourceCheckpoint :=
  { c with last_error := some error, error_count := (c.error_count + 1) % 2 ^ 32 }

/-- The `sources` map of `CheckpointState` (checkpoint.rs:82), modelled as an
association list, together with `CheckpointState::get_or_create`
(checkpoint.rs:101-105) inlined into the manager operations below. -/
def checkpointLookup (sources : List (String × SourceCheckpoint)) (source_id : String) :
    Option SourceCheckpoint :=
  (sources.find? (fun kv => kv.1 == source_id)).map (·.2)

/-- Update-or-insert into the `sources` map. -/
def checkpointStore (sources : List (String × SourceCheckpoint)) (source_id : String)
    (c : SourceCheckpoint) : List (String × SourceCheckpoint) :=
  if (sources.find? (fun kv => kv.1 == source_id)).isSome then
    sources.map (fun kv => if kv.1 == source_id then (kv.1, c) else kv)
  else
    sources ++ [(source_id, c)]

/-- `CheckpointManager::record_success` (checkpoint.rs:209-214):
`get_or_create` the per-source checkpoint, then
`SourceCheckpoint::record_success` on it. -/
def CheckpointManager.record_success (now : Nat) (source_id : String) (batch_count : Nat)
    (cursor : Option String) (sources : List (String × SourceCheckpoint)) :
    List (String × SourceCheckpoint) :=
  let c := (checkpointLookup sources source_id).getD (SourceCheckpoint.new source_id now)
  checkpointStore sources source_id (c.record_success now batch_count cursor)

/-- `CheckpointManager::record_error` (checkpoint.rs:217-222). -/
def CheckpointManager.record_error (now : Nat) (source_id : String) (error : String)
    (sources : List (String × SourceCheckpoint)) : List (String × SourceCheckpoint) :=
  let c := (checkpointLookup sources source_id).getD (SourceCheckpoint.new source_id now)
  checkpointStore sources source_id (c.record_error error)

/-! ## Deduplication store (`dedup.rs`), in-memory tier (no Redis) -/

/-- `DedupKey::combined_key` (dedup.rs:50-55). -/
structure DedupKey where
  source : String
  content_hash : String
  canonical_url : Option String
deriving DecidableEq

/-- `DedupKey::combined_key` (dedup.rs:50-55): `source:hash` or
`source:hash:url`. -/
def DedupKey.combined_key (k : DedupKey) : String :=
  match k.canonical_url with
  | some url => k.source ++ ":" ++ k.content_hash ++ ":" ++ url
  | none => k.source ++ ":" ++ k.content_hash

/-- The in-memory `seen` set of `DedupStore` (dedup.rs:115), a `HashSet`
modelled as a `Finset`. -/
abbrev SeenSet := Finset String

/-- `DedupStore::is_duplicate` (dedup.rs:147-173) with no Redis backend:
membership in the in-memory set. -/
def DedupStore.is_duplicate (seen : SeenSet) (k : DedupKey) : Bool :=
  decide (k.combined_key ∈ seen)

/-- `DedupStore::mark_seen` (dedup.rs:176-201) with no Redis backend: when
`seen.len() >= max_entries` the whole set is cleared (`seen.clear()`,
line 197), then the key is inserted. -/
def DedupStore.mark_seen (max_entries : Nat) (seen : SeenSet) (k : DedupKey) : SeenSet :=
  let seen := if max_entries ≤ seen.card then (∅ : SeenSet) else seen
  insert k.combined_key seen

/-- `DedupStore::check_and_mark` (dedup.rs:205-212): returns `true` on a
duplicate, otherwise marks the key seen and returns `false`. -/
def DedupStore.check_and_mark (max_entries : Nat) (seen : SeenSet) (k : DedupKey) :
    Bool × SeenSet :=
  if DedupStore.is_duplicate seen k then (true, seen)
  else (false, DedupStore.mark_seen max_entries seen k)

/-- An operation issued against a `DedupStore` (the mutating entry points of
dedup.rs). -/
inductive DedupOp
  | markSeen (k : DedupKey)
  | checkAndMark (k : DedupKey)

/-- Run one operation, tracking the set of combined keys that have actually
been inserted so far (most recent first). -/
def DedupStore.step (max_entries : Nat) :
    SeenSet × List String → DedupOp → SeenSet × List String
  | (seen, hist), .markSeen k => (DedupStore.mark_seen max_entries seen k, k.combined_key :: hist)
  | (seen, hist), .checkAndMark k =>
    let r := DedupStore.check_and_mark max_entries seen k
    if r.1 then (r.2, hist) else (r.2, k.combined_key :: hist)

/-- Run a whole operation sequence from the freshly created store
(`DedupStore::new`, dedup.rs:126-133: empty set). -/
def DedupStore.run (max_entries : Nat) (ops : List DedupOp) : SeenSet × List String :=
  ops.foldl (DedupStore.step max_entries) ((∅ : SeenSet), [])

/-! ## Resilient HTTP client (`http_client.rs`) -/

/-- The retry-relevant fields of `HttpClientConfig` (http_client.rs:26-43).
Durations are nanoseconds; `retry_multiplier` is an `f64` in the source,
modelled over `ℚ`. -/
structure HttpClientConfig where
  max_retries : Nat
  initial_retry_delay : Nat
  max_retry_delay : Nat
  retry_multiplier : ℚ
deriving DecidableEq

/-- `HttpClientConfig::default` (http_client.rs:45-58): 3 retries, 500 ms
initial delay, 30 s max delay, multiplier 2. -/
def HttpClientConfig.default : HttpClientConfig :=
  { max_retries := 3, initial_retry_delay := 500 * 10 ^ 6
    max_retry_delay := 30 * 10 ^ 9, retry_multiplier := 2 }

/-- The `delay` variable of the retry loop in `ResilientHttpClient::execute`
(http_client.rs:128, 162, 182): `delay` starts at `initial_retry_delay`, and
after the sleep that follows the `(i+1)`-th failed attempt it becomes
`min(delay * 2, max_retry_delay)` — the doubling factor is the literal `2`
in the source, and `retry_multiplier` is not consulted (`create_backoff`,
http_client.rs:102-110, is never called).  `sleepDelay cfg i` is the
un-jittered delay slept after attempt `i + 1`. -/
def sleepDelay (cfg : HttpClientConfig) : Nat → Nat
  | 0 => cfg.initial_retry_delay
  | i + 1 => min (2 * sleepDelay cfg i) cfg.max_retry_delay

/-- The un-jittered delay slept between the `n`-th failed attempt and attempt
`n + 1`, for `n ≥ 1`. -/
def delayAfterAttempt (cfg : HttpClientConfig) (n : Nat) : Nat :=
  sleepDelay cfg (n - 1)

/-- The jittered sleep of `ResilientHttpClient::execute`
(http_client.rs:159-161): `jitter = 0.5 + rand::random::<f64>()` lies in
`[1/2, 3/2)` and is passed here as an explicit parameter; the sleep is
`delay * jitter`. -/
def jitteredSleep (cfg : HttpClientConfig) (n : Nat) (jitter : ℚ) : ℚ :=
  (delayAfterAttempt cfg n : ℚ) * jitter

/-- Modelled from the spec claim's wording (not from the source): the backoff
base `min(initial_retry_delay × retry_multiplier^(n−1), max_retry_delay)`
that the claim asserts for the sleep before attempt `n + 1`. -/
def specBackoffDelay (cfg : HttpClientConfig) (n : Nat) : ℚ :=
  min ((cfg.initial_retry_delay : ℚ) * cfg.retry_multiplier ^ (n - 1)) (cfg.max_retry_delay : ℚ)

/-! ## Configuration (`config.rs`) and per-source quota -/

/-- The per-source rate-limit fields of `Config` (config.rs:25-34),
requests per minute (`u32`). -/
structure Config where
  nadfun_rate_limit_rpm : Nat
  rpc_rate_limit_rpm : Nat
  newsapi_rate_limit_rpm : Nat
  cryptopanic_rate_limit_rpm : Nat
  x_api_rate_limit_rpm : Nat
deriving DecidableEq

/-- `Config::validate` (config.rs:228-232): the body performs no checks at
all and returns `Ok(())` unconditionally. -/
def Config.validate (_ : Config) : Except String Unit := .ok ()

/-- The requests-per-minute quota actually built by `SourceHttpClient::new`
(http_client.rs:229-231): `NonZeroU32::new(rate_limit_rpm)` is `None`
exactly when the configured value is `0`, in which case `unwrap_or`
substitutes the default `60`. -/
def sourceQuotaRpm (rate_limit_rpm : Nat) : Nat :=
  if rate_limit_rpm = 0 then 60 else rate_limit_rpm

/-! ## Harvest cycle (`harvester.rs`, news/social harvester loop body) -/

/-- `DedupKey::from_content` (dedup.rs:29-36); the SHA-256 `compute_hash`
(dedup.rs:59-64) is abstracted as the parameter `hash`. -/
def DedupKey.from_content (hash : String → String) (source : String) (content : String) :
    DedupKey :=
  { source := source, content_hash := hash content, canonical_url := none }

/-- The fields of an `IngestionEvent` consumed by the harvester loop. -/
structure FetchedEvent where
  id : String
  deduplication_key : Option String
deriving DecidableEq

/-- `FetchResult` (sources/mod.rs), the fields the harvester consumes. -/
structure FetchResult where
  events : List FetchedEvent
  next_cursor : Option String
deriving DecidableEq

/-- Observable effects of one per-source iteration of the harvester loop. -/
structure HarvestCycleResult where
  /-- `checkpoint.record_success(source_id, n, cursor)` was called with these
  arguments. -/
  recorded_success : Option (Nat × Option String)
  /-- `checkpoint.record_error(source_id, msg)` was called with this message. -/
  recorded_error : Option String
  /-- `cb.record_success()` was called. -/
  cb_success : Bool
  /-- `cb.record_failure()` was called. -/
  cb_failure : Bool
  /-- ids whose append-log `append` was attempted and succeeded, in order. -/
  appended : List String
  /-- ids whose append-log `append` was attempted and failed, in order. -/
  append_failed : List String
  /-- the in-memory dedup set after the iteration. -/
  seen : SeenSet
deriving DecidableEq

/-- The per-event body of the harvester loop (harvester.rs:410-434): a
duplicate event is skipped; otherwise `append_log.append` is attempted, and
a failure is only logged (`warn!`) — the loop continues either way. -/
def harvestEventStep (hash : String → String) (max_entries : Nat) (source_id : String)
    (appendOk : String → Bool) (acc : SeenSet × List String × List String)
    (ev : FetchedEvent) : SeenSet × List String × List String :=
  let (seen, app, failed) := acc
  let afterDedup : Option SeenSet :=
    match ev.deduplication_key with
    | some key =>
      let k := DedupKey.from_content hash source_id key
      let r := DedupStore.check_and_mark max_entries seen k
      if r.1 then none else some r.2
    | none => some seen
  match afterDedup with
  | none => (seen, app, failed)
  | some seen' =>
    if appendOk ev.id then (seen', app ++ [ev.id], failed)
    else (seen', app, failed ++ [ev.id])

/-- One per-source iteration of the news/social harvester loop
(harvester.rs:401-454), after `allow_request` returned `true`:
on `Ok(result)` every event is processed by `harvestEventStep` and then
`record_success(source_id, result.events.len(), result.next_cursor)` and
`cb.record_success()` are called unconditionally — append failures do not
prevent the checkpoint advance and never reach `record_error`; on `Err(e)`
`record_error(source_id, e)` and `cb.record_failure()` are called. -/
def harvestCycle (hash : String → String) (max_entries : Nat) (source_id : String)
    (fetch : Except String FetchResult) (appendOk : String → Bool) (seen : SeenSet) :
    HarvestCycleResult :=
  match fetch with
  | .error e =>
    { recorded_success := none, recorded_error := some e
      cb_success := false, cb_failure := true
      appended := [], append_failed := [], seen := seen }
  | .ok r =>
    let (seen', app, failed) :=
      r.events.foldl (harvestEventStep hash max_entries source_id appendOk) (seen, [], [])
    { recorded_success := some (r.events.length, r.next_cursor), recorded_error := none
      cb_success := true, cb_failure := false
      appended := app, append_failed := failed, seen := seen' }

/-! ## URL canonicalization (`dedup.rs::canonicalize_url`)

The source delegates parsing and query handling to the `url` crate.  We
embed the crate's behaviour on a restricted domain: ASCII `http`/`https`
URLs of the shape `scheme://host[path][?query][#fragment]` (no IDN hosts, no
dot-segment path normalisation, no default-port elision — features that only
normalise further on the first pass and are not exercised by the claims).
`Url::query_pairs` uses `application/x-www-form-urlencoded` semantics
(`'+'` decodes to a space, `%XX` percent-decoding, pairs split on `'&'` and
at the first `'='`, empty chunks skipped); `Url::set_query` percent-encodes
the special-scheme query set (C0 controls, space, `'"'`, `'#'`, `'<'`,
`'>'`, `'\''`, DEL and non-ASCII) with uppercase hex digits. -/

/-- Value of an ASCII hex digit. -/
def hexVal (c : Char) : Option Nat :=
  if '0' ≤ c ∧ c ≤ '9' then some (c.toNat - 48)
  else if 'a' ≤ c ∧ c ≤ 'f' then some (c.toNat - 87)
  else if 'A' ≤ c ∧ c ≤ 'F' then some (c.toNat - 55)
  else none

/-- Uppercase hex digit of `n < 16` (as produced by the `url` crate's
percent-encoder). -/
def hexDigitUpper (n : Nat) : Char :=
  if n < 10 then Char.ofNat (48 + n) else Char.ofNat (55 + n)

/-- `application/x-www-form-urlencoded` decoding: `'+'` becomes a space and
`%XX` (valid hex) decodes to the byte `XX`; an invalid percent sequence is
kept verbatim. -/
def pctDecode : List Char → List Char
  | [] => []
  | c :: a :: b :: rest =>
    if c = '+' then ' ' :: pctDecode (a :: b :: rest)
    else if c = '%' then
      match hexVal a, hexVal b with
      | some x, some y => Char.ofNat (16 * x + y) :: pctDecode rest
      | _, _ => '%' :: pctDecode (a :: b :: rest)
    else c :: pctDecode (a :: b :: rest)
  | c :: rest =>
    if c = '+' then ' ' :: pctDecode rest else c :: pctDecode rest

/-- Split a form-urlencoded pair at its first `'='`. -/
def parsePair (p : List Char) : List Char × List Char :=
  (p.takeWhile (· ≠ '='), (p.dropWhile (· ≠ '=')).drop 1)

/-- `Url::query_pairs` (form-urlencoded parse): split on `'&'`, skip empty
chunks, split each chunk at its first `'='`, percent-plus-decode both
sides. -/
def formUrlDecode (q : List Char) : List (List Char × List Char) :=
  ((q.splitOn '&').filter (· ≠ [])).map
    (fun p => ((pctDecode (parsePair p).1), (pctDecode (parsePair p).2)))

/-- The tracking parameters removed by `canonicalize_url` (dedup.rs:78-82). -/
def trackingParams : List (List Char) :=
  ["utm_source", "utm_medium", "utm_campaign", "utm_term", "utm_content",
   "fbclid", "gclid", "msclkid", "ref", "source", "mc_cid", "mc_eid",
   "_ga", "_gl", "yclid", "twclid"].map String.toList

/-- The special-scheme query percent-encode set of `Url::set_query`. -/
def needsQueryEncode (c : Char) : Bool :=
  c.toNat < 0x20 || c == ' ' || c == '"' || c == '#' || c == '<' || c == '>' ||
    c == '\'' || 0x7f ≤ c.toNat

/-- Percent-encode one character for a query string. -/
def pctEncodeChar (c : Char) : List Char :=
  if needsQueryEncode c then ['%', hexDigitUpper (c.toNat / 16), hexDigitUpper (c.toNat % 16)]
  else [c]

/-- Percent-encode a raw query string (`Url::set_query`). -/
def encodeQuery (s : List Char) : List Char :=
  (s.map pctEncodeChar).flatten

/-- Parsed URL components. -/
structure UrlParts where
  scheme : List Char
  host : List Char
  path : List Char
  query : Option (List Char)
  fragment : Option (List Char)
deriving DecidableEq

/-- `Url::parse` on the modelled domain: ASCII only; a letters-only scheme
that lower-cases to `http` or `https`; `"://"`; a non-empty host running to
the first `/`, `?` or `#`; a path running to the first `?` or `#`; an
optional `?query` (to the first `#`) and an optional `#fragment`. -/
def parseUrl (s : List Char) : Option UrlParts :=
  if s.all (fun c => c.toNat < 128) then
    let scheme := s.takeWhile (· ≠ ':')
    if scheme ≠ [] ∧ scheme.all Char.isAlpha ∧
        (lowerStr scheme = "http".toList ∨ lowerStr scheme = "https".toList) then
      match s.drop scheme.length with
      | ':' :: '/' :: '/' :: r2 =>
        let host := r2.takeWhile (fun c => !(c == '/' || c == '?' || c == '#'))
        if host = [] then none
        else
          let r3 := r2.drop host.length
          let path := r3.takeWhile (fun c => !(c == '?' || c == '#'))
          let r4 := r3.drop path.length
          let query := if r4.head? = some '?' then some ((r4.drop 1).takeWhile (· ≠ '#')) else none
          let afterQ := if r4.head? = some '?' then (r4.drop 1).dropWhile (· ≠ '#') else r4
          let fragment := if afterQ.head? = some '#' then some (afterQ.drop 1) else none
          some { scheme := scheme, host := host, path := path, query := query, fragment := fragment }
      | _ => none
    else none
  else none

/-- Serialization of parsed components (`Url::to_string`). -/
def printUrl (p : UrlParts) : List Char :=
  p.scheme ++ "://".toList ++ p.host ++ p.path ++
    (match p.query with | some q => '?' :: q | none => []) ++
    (match p.fragment with | some f => '#' :: f | none => [])

/-- The query-pair pipeline of `canonicalize_url` (dedup.rs:85-95): decode
the pairs, drop those whose *decoded, original-case* key is a tracking
parameter, lower-case the keys, and stably sort by key (`sort_by` on
`a.0.cmp(&b.0)`; `List.insertionSort` is stable with the same comparator). -/
def canonicalQueryPairs (q : Option (List Char)) : List (List Char × List Char) :=
  let pairs := formUrlDecode (q.getD [])
  let pairs := pairs.filter (fun kv => !(trackingParams.contains kv.1))
  let pairs := pairs.map (fun kv => (lowerStr kv.1, kv.2))
  List.insertionSort (fun a b => a.1 ≤ b.1) pairs

/-- The key comparison of the `sort_by` in `canonicalize_url`
(dedup.rs:95). -/
instance : IsTotal (List Char × List Char) (fun a b => a.1 ≤ b.1) :=
  ⟨fun a b => le_total a.1 b.1⟩

instance : IsTrans (List Char × List Char) (fun a b => a.1 ≤ b.1) :=
  ⟨fun _ _ _ h1 h2 => le_trans h1 h2⟩

/-- Rebuild the raw query string: `format!("{}={}", k, v)` joined with
`"&"`. -/
def joinPairs (pairs : List (List Char × List Char)) : List Char :=
  List.intercalate ['&'] (pairs.map (fun kv => kv.1 ++ '=' :: kv.2))

/-- The component-level transformation of `canonicalize_url`: drop the
fragment; filter, lower-case and sort the query pairs and rebuild the query
through `set_query` (percent-encoding; no `'?'` at all when no pairs
remain); an empty path serializes as `/` for special schemes. -/
def canonicalParts (p : UrlParts) : UrlParts :=
  { scheme := p.scheme, host := p.host
    path := if p.path = [] then ['/'] else p.path
    query :=
      if (canonicalQueryPairs p.query).isEmpty then none
      else some (encodeQuery (joinPairs (canonicalQueryPairs p.query)))
    fragment := none }

/-- Lower-case every component (the effect of `to_lowercase` on the printed
URL, pushed through the components). -/
def lowerParts (p : UrlParts) : UrlParts :=
  { scheme := lowerStr p.scheme, host := lowerStr p.host, path := lowerStr p.path
    query := p.query.map lowerStr, fragment := p.fragment.map lowerStr }

/-- Model of `canonicalize_url` (dedup.rs:71-110): parse; apply
`canonicalParts`; serialize and lower-case the entire resulting string
(`url.to_string().to_lowercase()`, dedup.rs:107). -/
def canonicalize_url (s : List Char) : Option (List Char) :=
  (parseUrl s).map fun p => lowerStr (printUrl (canonicalParts p))

/-- Characters that none of the query transformations touch: ASCII
alphanumerics and `-` (45), `_` (95), `.` (46), `~` (126).  They are
distinct from the `&`/`=` separators and the `%`/`+` escapes, and need no
percent-encoding. -/
def safeChar (c : Char) : Bool :=
  decide ((48 ≤ c.toNat ∧ c.toNat ≤ 57) ∨ (65 ≤ c.toNat ∧ c.toNat ≤ 90) ∨
    (97 ≤ c.toNat ∧ c.toNat ≤ 122) ∨ c.toNat = 45 ∨ c.toNat = 95 ∨
    c.toNat = 46 ∨ c.toNat = 126)

/-- The decoded query pairs of a URL (what `Url::query_pairs` yields on it),
empty when the URL does not parse. -/
def decodedPairs (s : List Char) : List (List Char × List Char) :=
  match parseUrl s with
  | some p => formUrlDecode (p.query.getD [])
  | none => []

/-! ## Concrete sample states used to instantiate theorems with hypotheses -/

/-- The payload of the spec's S1 scenario event. -/
def s1Payload : List (String × JVal) :=
  [("title", .str "T1".toList), ("content", .str "Buy $BTC now".toList)]

/-- A breaker that has tripped at instant `0` (threshold 5 reached, default
config of circuit_breaker.rs:38-47 with `open_duration` 30 time units). -/
def sampleOpenBreaker : CircuitBreaker :=
  { config := { failure_threshold := 5, open_duration := 30
                success_threshold := 3, half_open_max_requests := 3 }
    state := .Open, failure_count := 5, success_count := 0, half_open_requests := 0
    last_failure_time := some 0, total_failures := 5, total_successes := 0, trips := 1 }

/-- A client configuration with a one-minute delay with no headroom to grow
and a large retry budget: every retry sleeps at least 30 s, so 100 retries
sleep at least 50 minutes — `execute` enforces no 5-minute elapsed cap. -/
def cfgNoCap : HttpClientConfig :=
  { max_retries := 100, initial_retry_delay := 60 * 10 ^ 9
    max_retry_delay := 60 * 10 ^ 9, retry_multiplier := 2 }

/-- A configuration whose `retry_multiplier` is 3 (the `execute` loop ignores
it and doubles). -/
def cfgMult3 : HttpClientConfig :=
  { max_retries := 5, initial_retry_delay := 4, max_retry_delay := 10 ^ 6
    retry_multiplier := 3 }

end Neuro

open Neuro

/-! # Theorems -/

/-- Evaluation helper for `simple_sentiment` at concrete word counts. -/
lemma simple_sentiment_eq (text : List Char) (p n : Nat)
    (hp : (Neuro.positiveWords.filter
      (fun w => Neuro.containsSub (Neuro.lowerStr text) w)).length = p)
    (hn : (Neuro.negativeWords.filter
      (fun w => Neuro.containsSub (Neuro.lowerStr text) w)).length = n) :
    Neuro.simple_sentiment text
      = if (p : ℤ) + (n : ℤ) = 0 then 0
        else (((p : ℤ) - (n : ℤ) : ℤ) : ℚ) / (((p : ℤ) + (n : ℤ) : ℤ) : ℚ) := by
  simp only [Neuro.simple_sentiment, hp, hn]

-- the unit test of stages.rs:461-470, replayed against the model
example : Neuro.extract_tickers "Buy $BTC and $ETH now! Also $DOGE.".toList
    = ["BTC".toList, "DOGE".toList, "ETH".toList] := by decide
example : Neuro.detect_language "Buy $BTC now".toList = "unknown".toList := by decide
example : Neuro.simple_sentiment "Buy $BTC now".toList = 1 := by
  rw [simple_sentiment_eq _ 1 0 (by decide) (by decide)]
  norm_num

-- the unit tests of dedup.rs:293-308, replayed against the model
example : Neuro.canonicalize_url
    "https://example.com/article?id=123&utm_source=twitter&utm_medium=social".toList
    = some "https://example.com/article?id=123".toList := by decide
example : Neuro.canonicalize_url "https://example.com/page#section".toList
    = some "https://example.com/page".toList := by decide
example : Neuro.canonicalize_url "https://example.com/search?z=last&a=first".toList
    = some "https://example.com/search?a=first&z=last".toList := by decide

/-! ### C1 — enrichment of the S1 event -/

/-- C1, counterexample: for the S1 payload (`content = "Buy $BTC now"`,
`title = "T1"`) the enrich stage computes `language = "unknown"`, not the
claimed `"en"`: `detect_language` counts stopwords by substring containment
in the lower-cased text, and none of the eight stopwords occurs inside
`"buy $btc now"`. -/
theorem c1_counterexample :
    (Neuro.enrichEvent Neuro.s1Payload .news).language = some "unknown".toList ∧
    (Neuro.enrichEvent Neuro.s1Payload .news).language ≠ some "en".toList := by
  exact ⟨by decide, by decide⟩

/-- C1 (amended): for the S1 event the enrich stage produces
`related_tickers = ["BTC"]`, `sentiment_score = 1 > 0` and
`category = "news"` as claimed, but `language = "unknown"` (not `"en"`). -/
theorem c1_amended :
    (Neuro.enrichEvent Neuro.s1Payload .news).related_tickers = ["BTC".toList] ∧
    (Neuro.enrichEvent Neuro.s1Payload .news).language = some "unknown".toList ∧
    0 < (Neuro.enrichEvent Neuro.s1Payload .news).sentiment_score.getD 0 ∧
    (Neuro.enrichEvent Neuro.s1Payload .news).category = some "news".toList := by
  refine ⟨by decide, by decide, ?_, by decide⟩
  have h : (Neuro.enrichEvent Neuro.s1Payload .news).sentiment_score.getD 0
      = Neuro.simple_sentiment "Buy $BTC now".toList := rfl
  rw [h, simple_sentiment_eq _ 1 0 (by decide) (by decide)]
  norm_num

/-! ### C2 — record_failure while Open -/

/-- C2, counterexample: recording a failure while the breaker is Open *does*
refresh `last_failure_time` (circuit_breaker.rs:204 runs before the state
match), which moves the instant at which `allow_request` can transition
Open → HalfOpen: with the sample breaker (tripped at instant 0,
`open_duration = 30`), a request at instant 120 would be allowed, but after
an extra failure at instant 100 it is blocked. -/
theorem c2_counterexample :
    (Neuro.sampleOpenBreaker.record_failure 100).last_failure_time = some 100 ∧
    Neuro.sampleOpenBreaker.last_failure_time = some 0 ∧
    (Neuro.sampleOpenBreaker.allow_request 120).1 = true ∧
    ((Neuro.sampleOpenBreaker.record_failure 100).allow_request 120).1 = false := by
  decide

/-- C2 (amended): `record_failure` while Open leaves the state, the failure
and success counters, the half-open counter and the trip counter unchanged,
but it increments `total_failures` *and refreshes `last_failure_at` to the
current instant*, thereby postponing the earliest Open → HalfOpen transition
of `allow_request`. -/
theorem c2_amended (cb : Neuro.CircuitBreaker) (now : Nat) (h : cb.state = .Open) :
    cb.record_failure now
      = { cb with total_failures := cb.total_failures + 1
                  last_failure_time := some now } := by
  simp [Neuro.CircuitBreaker.record_failure, h]

/-- C2 amended, witness at the sample Open breaker. -/
theorem c2_amended_witness :
    Neuro.sampleOpenBreaker.state = .Open ∧
    Neuro.sampleOpenBreaker.record_failure 100
      = { Neuro.sampleOpenBreaker with
          total_failures := Neuro.sampleOpenBreaker.total_failures + 1
          last_failure_time := some 100 } :=
  ⟨rfl, c2_amended Neuro.sampleOpenBreaker 100 rfl⟩

/-! ### C6 — SourceCheckpoint::record_success -/

/-- C6: `record_success` sets `last_fetch_at` to the current instant (so it
is non-decreasing whenever the clock is), stores the given cursor, adds
`batch_count` to `total_items_fetched` (no wrap under the stated bound),
resets `error_count` to 0 and clears `last_error`. -/
theorem c6_record_success (c : Neuro.SourceCheckpoint) (now batch : Nat)
    (cursor : Option String) (hclock : c.last_fetch_at ≤ now)
    (hfit : c.total_items_fetched + batch < 2 ^ 64) :
    (c.record_success now batch cursor).last_fetch_at = now ∧
    c.last_fetch_at ≤ (c.record_success now batch cursor).last_fetch_at ∧
    (c.record_success now batch cursor).cursor = cursor ∧
    (c.record_success now batch cursor).total_items_fetched
      = c.total_items_fetched + batch ∧
    (c.record_success now batch cursor).error_count = 0 ∧
    (c.record_success now batch cursor).last_error = none := by
  refine ⟨rfl, ?_, rfl, ?_, rfl, rfl⟩
  · simpa [Neuro.SourceCheckpoint.record_success] using hclock
  · simp only [Neuro.SourceCheckpoint.record_success]
    omega

/-- C6, witness: the checkpoint created at instant 5 for `"newsapi"`,
recording a 50-item batch with cursor `"page2"` at instant 10. -/
theorem c6_record_success_witness :
    (Neuro.SourceCheckpoint.new "newsapi" 5).last_fetch_at ≤ 10 ∧
    (Neuro.SourceCheckpoint.new "newsapi" 5).total_items_fetched + 50 < 2 ^ 64 ∧
    (((Neuro.SourceCheckpoint.new "newsapi" 5).record_success 10 50
        (some "page2")).last_fetch_at = 10 ∧
      (Neuro.SourceCheckpoint.new "newsapi" 5).last_fetch_at
        ≤ (((Neuro.SourceCheckpoint.new "newsapi" 5)).record_success 10 50
            (some "page2")).last_fetch_at ∧
      ((Neuro.SourceCheckpoint.new "newsapi" 5).record_success 10 50
          (some "page2")).cursor = some "page2" ∧
      ((Neuro.SourceCheckpoint.new "newsapi" 5).record_success 10 50
          (some "page2")).total_items_fetched
        = (Neuro.SourceCheckpoint.new "newsapi" 5).total_items_fetched + 50 ∧
      ((Neuro.SourceCheckpoint.new "newsapi" 5).record_success 10 50
          (some "page2")).error_count = 0 ∧
      ((Neuro.SourceCheckpoint.new "newsapi" 5).record_success 10 50
          (some "page2")).last_error = none) :=
  ⟨by decide, by decide,
    c6_record_success (Neuro.SourceCheckpoint.new "newsapi" 5) 10 50 (some "page2")
      (by decide) (by decide)⟩

/-! ### C7 — append-log failure during a harvest cycle -/

/-- C7, counterexample: with a single fresh event whose append fails, the
harvester cycle still calls `record_success(source_id, 1, cursor)` and never
calls `record_error` — append failures are only logged
(harvester.rs:431-433) and the checkpoint is advanced unconditionally
(harvester.rs:437-441). -/
theorem c7_counterexample :
    (Neuro.harvestCycle id 100 "newsapi"
        (.ok { events := [{ id := "a", deduplication_key := some "a" }], next_cursor := none })
        (fun _ => false) ∅).append_failed = ["a"] ∧
    (Neuro.harvestCycle id 100 "newsapi"
        (.ok { events := [{ id := "a", deduplication_key := some "a" }], next_cursor := none })
        (fun _ => false) ∅).recorded_error = none ∧
    (Neuro.harvestCycle id 100 "newsapi"
        (.ok { events := [{ id := "a", deduplication_key := some "a" }], next_cursor := none })
        (fun _ => false) ∅).recorded_success = some (1, none) := by
  exact ⟨by decide, by decide, by decide⟩

/-- C7 (amended): the harvester cycle's checkpoint calls depend only on the
fetch outcome.  When the fetch succeeds, `record_success` is called with the
full fetched count and the new cursor and `record_error` is not called —
regardless of dedup hits and of append-log failures, which are only logged;
`record_error` (and `cb.record_failure`) happen exactly when the fetch
itself fails. -/
theorem c7_amended (hash : String → String) (m : Nat) (sid : String)
    (appendOk : String → Bool) (seen : Neuro.SeenSet) (r : Neuro.FetchResult) (e : String) :
    ((Neuro.harvestCycle hash m sid (.ok r) appendOk seen).recorded_success
        = some (r.events.length, r.next_cursor) ∧
      (Neuro.harvestCycle hash m sid (.ok r) appendOk seen).recorded_error = none ∧
      (Neuro.harvestCycle hash m sid (.ok r) appendOk seen).cb_success = true) ∧
    ((Neuro.harvestCycle hash m sid (.error e) appendOk seen).recorded_error = some e ∧
      (Neuro.harvestCycle hash m sid (.error e) appendOk seen).recorded_success = none ∧
      (Neuro.harvestCycle hash m sid (.error e) appendOk seen).cb_failure = true) := by
  exact ⟨⟨rfl, rfl, rfl⟩, ⟨rfl, rfl, rfl⟩⟩

/-! ### C8 — zero requests-per-minute configuration -/

/-- C8, counterexample: a configuration whose NewsAPI rate limit is zero
passes `Config::validate` (which checks nothing, config.rs:228-232), and
`SourceHttpClient::new` then silently substitutes the default quota of 60
requests per minute (`NonZeroU32::new(0).unwrap_or(60)`,
http_client.rs:229-231) — zero rpm is never rejected. -/
theorem c8_counterexample :
    Neuro.Config.validate
        { nadfun_rate_limit_rpm := 60, rpc_rate_limit_rpm := 300
          newsapi_rate_limit_rpm := 0, cryptopanic_rate_limit_rpm := 30
          x_api_rate_limit_rpm := 15 } = .ok () ∧
    Neuro.sourceQuotaRpm 0 = 60 :=
  ⟨rfl, rfl⟩

/-- C8 (amended): configuration validation accepts every configuration
(including zero-rpm ones); instead of rejecting a zero rate limit, the
source client replaces it by the default 60 rpm, so the quota actually built
is always positive. -/
theorem c8_amended (cfg : Neuro.Config) (rpm : Nat) :
    Neuro.Config.validate cfg = .ok () ∧
    0 < Neuro.sourceQuotaRpm rpm ∧
    Neuro.sourceQuotaRpm 0 = 60 := by
  refine ⟨rfl, ?_, rfl⟩
  by_cases h : rpm = 0
  · simp [Neuro.sourceQuotaRpm, h]
  · simp only [Neuro.sourceQuotaRpm, if_neg h]
    omega

/-! ### C4 / C9 — dedup store invariants -/

/-- Membership after `mark_seen`: the new key, or a survivor of the old set
(eviction only ever removes elements). -/
lemma mem_mark_seen {m : Nat} {seen : Neuro.SeenSet} {k : Neuro.DedupKey} {x : String}
    (hx : x ∈ Neuro.DedupStore.mark_seen m seen k) :
    x = k.combined_key ∨ x ∈ seen := by
  unfold Neuro.DedupStore.mark_seen at hx
  rcases Finset.mem_insert.mp hx with h | h
  · exact .inl h
  · by_cases hc : m ≤ seen.card
    · simp [hc] at h
    · simp only [if_neg hc] at h
      exact .inr h

/-- Trace invariant: every key in the in-memory seen set was actually
inserted by some earlier `mark_seen` or `check_and_mark`. -/
lemma dedup_run_invariant (m : Nat) (ops : List Neuro.DedupOp) :
    ∀ init : Neuro.SeenSet × List String, (∀ x ∈ init.1, x ∈ init.2) →
      ∀ x ∈ (ops.foldl (Neuro.DedupStore.step m) init).1,
        x ∈ (ops.foldl (Neuro.DedupStore.step m) init).2 := by
  induction ops with
  | nil => exact fun init hinit => hinit
  | cons op rest ih =>
    intro init hinit
    refine ih _ ?_
    intro x hx
    cases op with
    | markSeen k =>
      simp only [Neuro.DedupStore.step] at hx ⊢
      rcases mem_mark_seen hx with h | h
      · simp [h]
      · simp [hinit x h]
    | checkAndMark k =>
      simp only [Neuro.DedupStore.step, Neuro.DedupStore.check_and_mark] at hx ⊢
      by_cases hd : Neuro.DedupStore.is_duplicate init.1 k
      · simp only [hd, if_true] at hx ⊢
        exact hinit x hx
      · simp only [hd, Bool.false_eq_true, if_false] at hx ⊢
        rcases mem_mark_seen hx with h | h
        · simp [h]
        · simp [hinit x h]

/-- C4: for the in-memory `DedupStore` (no Redis), a `true` answer from
`is_duplicate` — and `check_and_mark` answers `true` exactly when
`is_duplicate` does — implies that a key with the same `combined_key` was
inserted by an earlier `mark_seen` or `check_and_mark` of the operation
sequence: an unseen key is never reported as a duplicate, eviction
included. -/
theorem c4_no_false_positives (m : Nat) (ops : List Neuro.DedupOp) (k : Neuro.DedupKey)
    (h : Neuro.DedupStore.is_duplicate (Neuro.DedupStore.run m ops).1 k = true ∨
      (Neuro.DedupStore.check_and_mark m (Neuro.DedupStore.run m ops).1 k).1 = true) :
    k.combined_key ∈ (Neuro.DedupStore.run m ops).2 := by
  have hdup : Neuro.DedupStore.is_duplicate (Neuro.DedupStore.run m ops).1 k = true := by
    rcases h with h | h
    · exact h
    · by_cases hd : Neuro.DedupStore.is_duplicate (Neuro.DedupStore.run m ops).1 k
      · exact hd
      · simp [Neuro.DedupStore.check_and_mark, hd] at h
  have hmem : k.combined_key ∈ (Neuro.DedupStore.run m ops).1 := by
    simpa [Neuro.DedupStore.is_duplicate] using hdup
  exact dedup_run_invariant m ops (∅, []) (by simp) _ hmem

/-- C4, witness: after marking one key, `is_duplicate` answers `true` and the
key is indeed in the insertion history. -/
theorem c4_no_false_positives_witness :
    (Neuro.DedupStore.is_duplicate
        (Neuro.DedupStore.run 100 [.markSeen ⟨"newsapi", "h1", none⟩]).1
        ⟨"newsapi", "h1", none⟩ = true) ∧
    (Neuro.DedupKey.combined_key ⟨"newsapi", "h1", none⟩
        ∈ (Neuro.DedupStore.run 100 [.markSeen ⟨"newsapi", "h1", none⟩]).2) :=
  ⟨by decide, c4_no_false_positives 100 [.markSeen ⟨"newsapi", "h1", none⟩]
      ⟨"newsapi", "h1", none⟩ (.inl (by decide))⟩

/-- One `mark_seen` always lands at or below the bound: either the set was
full and got cleared (size 1 afterwards), or it had room. -/
lemma mark_seen_card_le (m : Nat) (seen : Neuro.SeenSet) (k : Neuro.DedupKey) :
    (Neuro.DedupStore.mark_seen m seen k).card ≤ max m 1 := by
  unfold Neuro.DedupStore.mark_seen
  by_cases hc : m ≤ seen.card
  · simp only [if_pos hc]
    calc (insert k.combined_key (∅ : Neuro.SeenSet)).card = 1 := by simp
    _ ≤ max m 1 := le_max_right _ _
  · simp only [if_neg hc]
    calc (insert k.combined_key seen).card ≤ seen.card + 1 := Finset.card_insert_le _ _
    _ ≤ m := by omega
    _ ≤ max m 1 := le_max_left _ _

/-- Fold version of the size bound. -/
lemma dedup_run_card_aux (m : Nat) (ops : List Neuro.DedupOp) :
    ∀ init : Neuro.SeenSet × List String, init.1.card ≤ max m 1 →
      ((ops.foldl (Neuro.DedupStore.step m) init).1).card ≤ max m 1 := by
  induction ops with
  | nil => exact fun init hinit => hinit
  | cons op rest ih =>
    intro init hinit
    refine ih _ ?_
    cases op with
    | markSeen k => exact mark_seen_card_le m init.1 k
    | checkAndMark k =>
      simp only [Neuro.DedupStore.step, Neuro.DedupStore.check_and_mark]
      by_cases hd : Neuro.DedupStore.is_duplicate init.1 k
      · simpa [hd] using hinit
      · simpa [hd] using mark_seen_card_le m init.1 k

/-- C9: the in-memory seen set never exceeds `max(max_entries, 1)` keys:
one `mark_seen` from any state obeys the bound (reaching `max_entries`
triggers `seen.clear()` before the insert), and hence so does every state
reached from the fresh store by any sequence of `mark_seen` /
`check_and_mark` operations. -/
theorem c9_seen_set_bounded (m : Nat) (seen : Neuro.SeenSet) (k : Neuro.DedupKey)
    (ops : List Neuro.DedupOp) :
    (Neuro.DedupStore.mark_seen m seen k).card ≤ max m 1 ∧
    ((Neuro.DedupStore.run m ops).1).card ≤ max m 1 :=
  ⟨mark_seen_card_le m seen k, dedup_run_card_aux m ops (∅, []) (by simp)⟩

/-! ### C3 — retry backoff of `ResilientHttpClient::execute` -/

/-- C3, counterexample: with `retry_multiplier = 3`, `initial = 4` and a
huge `max`, the sleep after the 2nd failed attempt at minimal jitter is
`min(2·4, max)·(1/2) = 4` (the loop doubles, ignoring the multiplier), while
the claim requires `min(4·3^1, max)·j = 12·j` for some jitter
`j ∈ [1/2, 3/2]` — impossible, because `12·j ≥ 6 > 4`. -/
theorem c3_counterexample :
    ¬ ∃ j : ℚ, 1/2 ≤ j ∧ j ≤ 3/2 ∧
      Neuro.jitteredSleep Neuro.cfgMult3 2 (1/2)
        = Neuro.specBackoffDelay Neuro.cfgMult3 2 * j := by
  rintro ⟨j, hj, -, heq⟩
  have hd : Neuro.delayAfterAttempt Neuro.cfgMult3 2 = 8 := by decide
  have h1 : Neuro.jitteredSleep Neuro.cfgMult3 2 (1/2) = 4 := by
    rw [Neuro.jitteredSleep, hd]
    norm_num
  have h2 : Neuro.specBackoffDelay Neuro.cfgMult3 2 = 12 := by
    rw [Neuro.specBackoffDelay]
    norm_num [Neuro.cfgMult3, min_def]
  rw [h1, h2] at heq
  linarith

/-- Closed form of the doubling-with-cap delay recurrence when the initial
delay does not exceed the cap. -/
lemma sleepDelay_eq (cfg : Neuro.HttpClientConfig)
    (h : cfg.initial_retry_delay ≤ cfg.max_retry_delay) (i : Nat) :
    Neuro.sleepDelay cfg i = min (cfg.initial_retry_delay * 2 ^ i) cfg.max_retry_delay := by
  induction i with
  | zero => simp [Neuro.sleepDelay, Nat.min_eq_left h]
  | succ i ih =>
    rw [Neuro.sleepDelay, ih]
    have h2 : cfg.initial_retry_delay * 2 ^ (i + 1)
        = 2 * (cfg.initial_retry_delay * 2 ^ i) := by ring
    rw [h2]
    omega

/-- With `initial = max = 60 s` every un-jittered delay is 60 s. -/
lemma sleepDelay_cfgNoCap (i : Nat) : Neuro.sleepDelay Neuro.cfgNoCap i = 6 * 10 ^ 10 := by
  induction i with
  | zero => decide
  | succ i ih =>
    rw [Neuro.sleepDelay, ih]
    decide

/-- C3 (amended): the sleep before attempt `n + 1` is
`min(initial · 2^(n−1), max) · jitter` — the doubling factor is the hardcoded
`2` of the loop, not `retry_multiplier`, and the jitter drawn as
`0.5 + rand()` lies in `[1/2, 3/2)`.  No 5-minute elapsed cap is enforced
(`create_backoff`, which sets one, is never called): with a 60 s delay
and 100 retries the minimal-jitter sleeps alone sum to 3000 s > 300 s. -/
theorem c3_amended (cfg : Neuro.HttpClientConfig) (n : Nat) (j : ℚ)
    (_hn : 1 ≤ n) (hle : cfg.initial_retry_delay ≤ cfg.max_retry_delay) :
    Neuro.jitteredSleep cfg n j
      = ((min (cfg.initial_retry_delay * 2 ^ (n - 1)) cfg.max_retry_delay : ℕ) : ℚ) * j ∧
    (Finset.range 100).sum (fun i => Neuro.jitteredSleep Neuro.cfgNoCap (i + 1) (1/2))
      = 3 * 10 ^ 12 := by
  refine ⟨?_, ?_⟩
  · simp only [Neuro.jitteredSleep, Neuro.delayAfterAttempt, sleepDelay_eq cfg hle]
  · have hterm : ∀ i : Nat, Neuro.jitteredSleep Neuro.cfgNoCap (i + 1) (1/2)
        = 3 * 10 ^ 10 := by
      intro i
      simp only [Neuro.jitteredSleep, Neuro.delayAfterAttempt, Nat.add_sub_cancel,
        sleepDelay_cfgNoCap]
      norm_num
    rw [Finset.sum_congr rfl fun i _ => hterm i, Finset.sum_const, Finset.card_range]
    norm_num

/-- C3 amended, witness at the default client configuration, third attempt,
unit jitter. -/
theorem c3_amended_witness :
    (1 : Nat) ≤ 3 ∧
    Neuro.HttpClientConfig.default.initial_retry_delay
      ≤ Neuro.HttpClientConfig.default.max_retry_delay ∧
    (Neuro.jitteredSleep Neuro.HttpClientConfig.default 3 1
        = ((min (Neuro.HttpClientConfig.default.initial_retry_delay * 2 ^ (3 - 1))
            Neuro.HttpClientConfig.default.max_retry_delay : ℕ) : ℚ) * 1 ∧
      (Finset.range 100).sum (fun i => Neuro.jitteredSleep Neuro.cfgNoCap (i + 1) (1/2))
        = 3 * 10 ^ 12) :=
  ⟨by norm_num, by decide,
    c3_amended Neuro.HttpClientConfig.default 3 1 (by norm_num) (by decide)⟩

/-! ### C10 — shape of `extract_tickers` output -/

/-- `Char.ofNat` at a valid codepoint round-trips through `toNat`. -/
lemma char_toNat_ofNat {n : Nat} (h : n.isValidChar) : (Char.ofNat n).toNat = n := by
  rw [Char.ofNat, dif_pos h]
  rfl

/-- ASCII upper-casing is idempotent. -/
lemma toUpper_idem (c : Char) : c.toUpper.toUpper = c.toUpper := by
  simp only [Char.toUpper]
  by_cases h : c.toNat ≥ 97 ∧ c.toNat ≤ 122
  · rw [if_pos h]
    have hv : (c.toNat - 32).isValidChar := Or.inl (by omega)
    rw [if_neg]
    rw [char_toNat_ofNat hv]
    omega
  · rw [if_neg h, if_neg h]

/-- Every character takes at least one UTF-8 byte. -/
lemma length_le_utf8Len (s : List Char) : s.length ≤ Neuro.utf8Len s := by
  induction s with
  | nil => simp [Neuro.utf8Len]
  | cons c t ih =>
    have := c.utf8Size_pos
    simp only [Neuro.utf8Len, List.map_cons, List.sum_cons, List.length_cons] at *
    omega

/-- Pointwise conjunction of two `Chain'` facts. -/
lemma chain'_and {α : Type} {R S : α → α → Prop} {l : List α}
    (hR : l.Chain' R) (hS : l.Chain' S) : l.Chain' (fun a b => R a b ∧ S a b) := by
  rw [List.chain'_iff_get] at hR hS ⊢
  exact fun i h => ⟨hR i h, hS i h⟩

/-- Removing consecutive duplicates from a `≤`-sorted list yields a sorted
duplicate-free list. -/
lemma destutter_sorted_nodup {l : List (List Char)} (hs : l.Sorted (· ≤ ·)) :
    (l.destutter (· ≠ ·)).Sorted (· ≤ ·) ∧ (l.destutter (· ≠ ·)).Nodup := by
  have hsub : List.Sublist (l.destutter (· ≠ ·)) l := List.destutter_sublist _ _
  have hs' : (l.destutter (· ≠ ·)).Sorted (· ≤ ·) := hs.sublist hsub
  have hch : (l.destutter (· ≠ ·)).Chain' (· ≠ ·) := List.destutter_is_chain' _ _
  have hle : (l.destutter (· ≠ ·)).Chain' (· ≤ ·) := hs'.chain'
  have hlt : (l.destutter (· ≠ ·)).Chain' (· < ·) :=
    (chain'_and hle hch).imp (fun _ _ hab => lt_of_le_of_ne hab.1 hab.2)
  have hpw : (l.destutter (· ≠ ·)).Pairwise (· < ·) := List.chain'_iff_pairwise.mp hlt
  exact ⟨hs', hpw.imp (fun h => ne_of_lt h)⟩

/-- Concatenating singleton images is a plain `map`. -/
lemma flatten_map_singleton {α β : Type} (f : α → β) (l : List α) :
    (l.map (fun a => [f a])).flatten = l.map f := by
  induction l with
  | nil => rfl
  | cons a t ih => simp [ih]

/-- On ASCII input the table-parameterised extraction agrees with the ASCII
model above, word by word and end to end. -/
example :
    (∀ w ∈ Neuro.splitWs "Buy $BTC and $ETH now! Also $DOGE. $ x$y $toolongticker1".toList,
      Neuro.tickerOfWordU Neuro.asciiTables w = Neuro.tickerOfWord w) ∧
    Neuro.extract_tickersU Neuro.asciiTables "Buy $BTC and $ETH now! Also $DOGE.".toList
      = Neuro.extract_tickers "Buy $BTC and $ETH now! Also $DOGE.".toList := by
  decide

/-- What `tickerOfWordU` guarantees about a produced ticker: the word starts
with `'$'`, its tail trims to a non-empty remainder of at most 10 UTF-8
bytes, and the ticker is the concatenated uppercase expansion of that
remainder — nothing bounds the ticker's own length. -/
lemma tickerOfWordU_spec {U : Neuro.CharTables} {w t : List Char}
    (h : Neuro.tickerOfWordU U w = some t) :
    w.head? = some '$' ∧
    Neuro.trimMatches (fun ch => !U.isAlphanumeric ch) w.tail ≠ [] ∧
    Neuro.utf8Len (Neuro.trimMatches (fun ch => !U.isAlphanumeric ch) w.tail) ≤ 10 ∧
    t = ((Neuro.trimMatches (fun ch => !U.isAlphanumeric ch) w.tail).map U.toUppercase).flatten := by
  unfold Neuro.tickerOfWordU at h
  split at h
  case h_2 => exact absurd h (by simp)
  case h_1 c rest =>
    split at h
    case isFalse => exact absurd h (by simp)
    case isTrue hcond =>
      obtain ⟨hne, hlen⟩ := hcond
      exact ⟨rfl, hne, hlen, (Option.some_injective _ h).symm⟩

/-- C10, counterexample: on the six-character input `"$ΐΐΐΐΐ"` (a dollar sign
followed by five copies of U+0390) the guard `ticker.len() <= 10` passes —
`str::len` counts UTF-8 bytes and U+0390 takes two, so the pre-uppercase
ticker has exactly 10 bytes — and `to_uppercase()` then expands every U+0390
into the three characters U+0399 U+0308 U+0301, so the single returned
element has 15 characters (30 bytes): the claimed at-most-10-character bound
fails.  The tables `tables390` agree with the real Unicode Character Database
on every character involved. -/
theorem c10_counterexample :
    ∃ t ∈ Neuro.extract_tickersU Neuro.tables390 "$ΐΐΐΐΐ".toList, 10 < t.length := by
  decide

/-- C10 (amended): for every choice of Unicode character tables and every
input text, `extract_tickers` returns an ascendingly sorted list with no
duplicates, and every element is the (possibly expanding) uppercasing of the
non-empty trimmed remainder of a whitespace-separated token that starts with
`'$'`, where the remainder *before* uppercasing has at most 10 UTF-8 bytes;
the element itself can exceed 10 characters. -/
theorem c10_amended (U : Neuro.CharTables) (text : List Char) :
    (Neuro.extract_tickersU U text).Sorted (· ≤ ·) ∧
    (Neuro.extract_tickersU U text).Nodup ∧
    ∀ t ∈ Neuro.extract_tickersU U text,
      ∃ w ∈ Neuro.splitWsU U text, w.head? = some '$' ∧
        Neuro.trimMatches (fun ch => !U.isAlphanumeric ch) w.tail ≠ [] ∧
        Neuro.utf8Len (Neuro.trimMatches (fun ch => !U.isAlphanumeric ch) w.tail) ≤ 10 ∧
        t = ((Neuro.trimMatches (fun ch => !U.isAlphanumeric ch) w.tail).map
          U.toUppercase).flatten := by
  have hsorted0 :
      (List.insertionSort (· ≤ ·)
        ((Neuro.splitWsU U text).filterMap (Neuro.tickerOfWordU U))).Sorted (· ≤ ·) :=
    List.sorted_insertionSort _ _
  obtain ⟨hs, hnd⟩ := destutter_sorted_nodup hsorted0
  refine ⟨hs, hnd, ?_⟩
  intro t ht
  have ht1 : t ∈ List.insertionSort (· ≤ ·)
      ((Neuro.splitWsU U text).filterMap (Neuro.tickerOfWordU U)) :=
    (List.destutter_sublist _ _).subset ht
  have ht2 : t ∈ (Neuro.splitWsU U text).filterMap (Neuro.tickerOfWordU U) := by
    simpa using ht1
  obtain ⟨w, hw, hwt⟩ := List.mem_filterMap.mp ht2
  obtain ⟨hhead, hne, hlen, htt⟩ := tickerOfWordU_spec hwt
  exact ⟨w, hw, hhead, hne, hlen, htt⟩

/-! ### C5 — idempotence of URL canonicalization -/

/-- C5, counterexample: `canonicalize_url` filters tracking parameters by
their *decoded, original-case* key but lower-cases keys afterwards, so
`?UTM_SOURCE=x` survives the first pass (the filter compares
case-sensitively against lower-case names) and is removed by the second:
canonicalization is not idempotent. -/
theorem c5_counterexample :
    Neuro.canonicalize_url "https://ex.com/?UTM_SOURCE=x&a=1".toList
      = some "https://ex.com/?a=1&utm_source=x".toList ∧
    Neuro.canonicalize_url "https://ex.com/?a=1&utm_source=x".toList
      = some "https://ex.com/?a=1".toList ∧
    ("https://ex.com/?a=1&utm_source=x".toList : List Char)
      ≠ "https://ex.com/?a=1".toList := by
  exact ⟨by decide, by decide, by decide⟩

/-- Lower-casing fixes characters that are not upper-case ASCII letters. -/
lemma toLower_eq_self {c : Char} (h : ¬(65 ≤ c.toNat ∧ c.toNat ≤ 90)) :
    c.toLower = c := by
  simp only [Char.toLower]
  rw [if_neg]
  omega

/-- Code point of the lower-cased character of an upper-case ASCII letter. -/
lemma toLower_toNat_of_upper {c : Char} (h : 65 ≤ c.toNat ∧ c.toNat ≤ 90) :
    c.toLower.toNat = c.toNat + 32 := by
  simp only [Char.toLower]
  rw [if_pos (by omega)]
  exact char_toNat_ofNat (Or.inl (by omega))

/-- ASCII lower-casing is idempotent. -/
lemma toLower_idem (c : Char) : c.toLower.toLower = c.toLower := by
  by_cases h : 65 ≤ c.toNat ∧ c.toNat ≤ 90
  · have h1 := toLower_toNat_of_upper h
    exact toLower_eq_self (by omega)
  · rw [toLower_eq_self h, toLower_eq_self h]

/-- Lower-casing keeps ASCII inside ASCII. -/
lemma toLower_toNat_lt {c : Char} (h : c.toNat < 128) : c.toLower.toNat < 128 := by
  by_cases hc : 65 ≤ c.toNat ∧ c.toNat ≤ 90
  · rw [toLower_toNat_of_upper hc]
    omega
  · rw [toLower_eq_self hc]
    exact h

/-- If `toLower c` is not a lower-case ASCII letter, nothing was changed. -/
lemma eq_of_toLower_eq {c d : Char} (hd : ¬(97 ≤ d.toNat ∧ d.toNat ≤ 122))
    (h : c.toLower = d) : c = d := by
  by_cases hc : 65 ≤ c.toNat ∧ c.toNat ≤ 90
  · have h1 := toLower_toNat_of_upper hc
    rw [h] at h1
    omega
  · rw [toLower_eq_self hc] at h
    exact h

lemma lowerStr_append (a b : List Char) :
    Neuro.lowerStr (a ++ b) = Neuro.lowerStr a ++ Neuro.lowerStr b :=
  List.map_append _ _ _

lemma lowerStr_idem (s : List Char) : Neuro.lowerStr (Neuro.lowerStr s) = Neuro.lowerStr s := by
  simp only [Neuro.lowerStr, List.map_map]
  exact List.map_congr_left (fun a _ => toLower_idem a)

/-- `takeWhile` walks through a prefix that satisfies the predicate. -/
lemma takeWhile_append_all {p : Char → Bool} {a b : List Char}
    (h : ∀ x ∈ a, p x = true) : (a ++ b).takeWhile p = a ++ b.takeWhile p := by
  induction a with
  | nil => simp
  | cons c t ih =>
    simp only [List.cons_append, List.takeWhile_cons, h c (by simp)]
    simp [ih (fun x hx => h x (by simp [hx]))]

/-- `dropWhile` skips a prefix that satisfies the predicate. -/
lemma dropWhile_append_all {p : Char → Bool} {a b : List Char}
    (h : ∀ x ∈ a, p x = true) : (a ++ b).dropWhile p = b.dropWhile p := by
  induction a with
  | nil => simp
  | cons c t ih =>
    simp only [List.cons_append, List.dropWhile_cons, h c (by simp)]
    simp [ih (fun x hx => h x (by simp [hx]))]

/-- Characters are equal iff their code points are. -/
lemma char_eq_iff {c d : Char} : c = d ↔ c.toNat = d.toNat :=
  ⟨fun h => congrArg Char.toNat h, fun h => Char.eq_of_val_eq (UInt32.ext h)⟩

/-- Arithmetic form of `safeChar`. -/
lemma safe_toNat {c : Char} (h : Neuro.safeChar c = true) :
    (48 ≤ c.toNat ∧ c.toNat ≤ 57) ∨ (65 ≤ c.toNat ∧ c.toNat ≤ 90) ∨
    (97 ≤ c.toNat ∧ c.toNat ≤ 122) ∨ c.toNat = 45 ∨ c.toNat = 95 ∨
    c.toNat = 46 ∨ c.toNat = 126 := by
  simpa [Neuro.safeChar] using h

/-- Converse of `safe_toNat`. -/
lemma safe_of_toNat {c : Char}
    (h : (48 ≤ c.toNat ∧ c.toNat ≤ 57) ∨ (65 ≤ c.toNat ∧ c.toNat ≤ 90) ∨
      (97 ≤ c.toNat ∧ c.toNat ≤ 122) ∨ c.toNat = 45 ∨ c.toNat = 95 ∨
      c.toNat = 46 ∨ c.toNat = 126) : Neuro.safeChar c = true := by
  simpa [Neuro.safeChar] using h

/-- A safe character differs from any character whose code point is outside
the safe set. -/
lemma safe_ne_of {c d : Char} (h : Neuro.safeChar c = true)
    (hd : ¬((48 ≤ d.toNat ∧ d.toNat ≤ 57) ∨ (65 ≤ d.toNat ∧ d.toNat ≤ 90) ∨
      (97 ≤ d.toNat ∧ d.toNat ≤ 122) ∨ d.toNat = 45 ∨ d.toNat = 95 ∨
      d.toNat = 46 ∨ d.toNat = 126)) : c ≠ d :=
  fun he => hd (he ▸ safe_toNat h)

/-- Safe characters are ASCII. -/
lemma safe_lt_128 {c : Char} (h : Neuro.safeChar c = true) : c.toNat < 128 := by
  have := safe_toNat h
  omega

/-- Safe characters need no percent-encoding. -/
lemma safe_needsQueryEncode {c : Char} (h : Neuro.safeChar c = true) :
    Neuro.needsQueryEncode c = false := by
  have hn := safe_toNat h
  simp only [Neuro.needsQueryEncode, Bool.or_eq_false_iff]
  refine ⟨⟨⟨⟨⟨⟨⟨?_, ?_⟩, ?_⟩, ?_⟩, ?_⟩, ?_⟩, ?_⟩, ?_⟩
  · exact decide_eq_false (by omega)
  · exact beq_eq_false_iff_ne.mpr (safe_ne_of h (by decide))
  · exact beq_eq_false_iff_ne.mpr (safe_ne_of h (by decide))
  · exact beq_eq_false_iff_ne.mpr (safe_ne_of h (by decide))
  · exact beq_eq_false_iff_ne.mpr (safe_ne_of h (by decide))
  · exact beq_eq_false_iff_ne.mpr (safe_ne_of h (by decide))
  · exact beq_eq_false_iff_ne.mpr (safe_ne_of h (by decide))
  · exact decide_eq_false (by omega)

/-- Lower-casing preserves safety. -/
lemma safe_toLower {c : Char} (h : Neuro.safeChar c = true) :
    Neuro.safeChar c.toLower = true := by
  have hn := safe_toNat h
  by_cases hc : 65 ≤ c.toNat ∧ c.toNat ≤ 90
  · have h1 := toLower_toNat_of_upper hc
    exact safe_of_toNat (by omega)
  · rw [toLower_eq_self hc]
    exact h

/-- `encodeQuery` leaves a string of unencodable characters unchanged. -/
lemma encodeQuery_of_safe {s : List Char}
    (h : ∀ c ∈ s, Neuro.needsQueryEncode c = false) : Neuro.encodeQuery s = s := by
  induction s with
  | nil => rfl
  | cons c t ih =>
    simp only [Neuro.encodeQuery, List.map_cons, List.flatten_cons] at *
    rw [Neuro.pctEncodeChar, if_neg (by simp [h c (by simp)])]
    simp [ih (fun x hx => h x (by simp [hx]))]

/-- `pctDecode` on a cell that is neither an escape nor a plus. -/
lemma pctDecode_cons_clean {c : Char} {rest : List Char} (h1 : c ≠ '+') (h2 : c ≠ '%') :
    Neuro.pctDecode (c :: rest) = c :: Neuro.pctDecode rest := by
  rcases rest with _ | ⟨x, _ | ⟨y, t⟩⟩
  · simp only [Neuro.pctDecode, if_neg h1]
  · simp only [Neuro.pctDecode, if_neg h1]
  · simp only [Neuro.pctDecode, if_neg h1, if_neg h2]

/-- `pctDecode` leaves a string without `%` and `+` unchanged. -/
lemma pctDecode_of_clean {s : List Char}
    (h : ∀ c ∈ s, c ≠ '%' ∧ c ≠ '+') : Neuro.pctDecode s = s := by
  induction s with
  | nil => rfl
  | cons c t ih =>
    rw [pctDecode_cons_clean (h c (by simp)).2 (h c (by simp)).1,
      ih (fun x hx => h x (by simp [hx]))]

/-- Splitting a form pair built as `k ++ "=" ++ v` at the first `'='`. -/
lemma parsePair_append {k v : List Char} (hk : ∀ c ∈ k, c ≠ '=') :
    Neuro.parsePair (k ++ '=' :: v) = (k, v) := by
  unfold Neuro.parsePair
  have hall : ∀ x ∈ k, (decide (x ≠ '=')) = true := fun x hx => decide_eq_true (hk x hx)
  rw [takeWhile_append_all hall, dropWhile_append_all hall]
  simp [List.takeWhile_cons, List.dropWhile_cons]

/-- Unfolding `intercalate` on two or more chunks. -/
lemma intercalate_cons₂ (sep a b : List Char) (t : List (List Char)) :
    List.intercalate sep (a :: b :: t) = a ++ sep ++ List.intercalate sep (b :: t) := by
  simp [List.intercalate, List.intersperse_cons_cons, List.append_assoc]

/-- Unfolding `intercalate` on one chunk. -/
lemma intercalate_single (sep a : List Char) : List.intercalate sep [a] = a := by
  simp [List.intercalate]

/-- Where the characters of `joinPairs` come from. -/
lemma mem_joinPairs {pairs : List (List Char × List Char)} {c : Char}
    (hc : c ∈ Neuro.joinPairs pairs) :
    c = '&' ∨ c = '=' ∨ ∃ kv ∈ pairs, c ∈ kv.1 ∨ c ∈ kv.2 := by
  induction pairs with
  | nil => simp [Neuro.joinPairs, List.intercalate] at hc
  | cons kv rest ih =>
    rcases rest with _ | ⟨kv2, t⟩
    · simp only [Neuro.joinPairs, List.map_cons, List.map_nil, intercalate_single,
        List.mem_append, List.mem_cons] at hc
      rcases hc with h | h | h
      · exact .inr (.inr ⟨kv, by simp, .inl h⟩)
      · exact .inr (.inl h)
      · exact .inr (.inr ⟨kv, by simp, .inr h⟩)
    · simp only [Neuro.joinPairs, List.map_cons, intercalate_cons₂, List.mem_append,
        List.mem_cons] at hc
      rcases hc with ((h | h | h) | h) | h
      · exact .inr (.inr ⟨kv, by simp, .inl h⟩)
      · exact .inr (.inl h)
      · exact .inr (.inr ⟨kv, by simp, .inr h⟩)
      · simp at h
        exact .inl h
      · have := ih (by simpa [Neuro.joinPairs] using h)
        rcases this with h | h | ⟨kv', hkv', h⟩
        · exact .inl h
        · exact .inr (.inl h)
        · exact .inr (.inr ⟨kv', by simp [hkv'], h⟩)

/-- Re-decoding a query rebuilt from safe pairs recovers exactly the
pairs. -/
lemma formUrlDecode_joinPairs {pairs : List (List Char × List Char)} (hne : pairs ≠ [])
    (hclean : ∀ kv ∈ pairs,
      (∀ c ∈ kv.1, Neuro.safeChar c = true) ∧ (∀ c ∈ kv.2, Neuro.safeChar c = true)) :
    Neuro.formUrlDecode (Neuro.joinPairs pairs) = pairs := by
  have hitem : ∀ kv ∈ pairs, '&' ∉ (kv.1 ++ '=' :: kv.2) := by
    intro kv hkv hmem
    rcases List.mem_append.mp hmem with h | h
    · exact safe_ne_of ((hclean kv hkv).1 _ h) (by decide) rfl
    · rcases List.mem_cons.mp h with h | h
      · exact absurd h.symm (by decide)
      · exact safe_ne_of ((hclean kv hkv).2 _ h) (by decide) rfl
  have hsplit : (Neuro.joinPairs pairs).splitOn '&'
      = pairs.map (fun kv => kv.1 ++ '=' :: kv.2) := by
    rw [Neuro.joinPairs]
    exact List.splitOn_intercalate _ '&'
      (by intro l hl; obtain ⟨kv, hkv, rfl⟩ := List.mem_map.mp hl; exact hitem kv hkv)
      (by simpa using hne)
  rw [Neuro.formUrlDecode, hsplit]
  rw [List.filter_eq_self.mpr]
  · rw [List.map_map]
    have : ∀ kv ∈ pairs,
        ((fun p => (Neuro.pctDecode (Neuro.parsePair p).1, Neuro.pctDecode (Neuro.parsePair p).2)) ∘
          fun kv => kv.1 ++ '=' :: kv.2) kv = id kv := by
      intro kv hkv
      have hpp : Neuro.parsePair (kv.1 ++ '=' :: kv.2) = (kv.1, kv.2) :=
        parsePair_append (fun c hc => safe_ne_of ((hclean kv hkv).1 _ hc) (by decide))
      simp only [Function.comp_apply, hpp, id_eq]
      rw [pctDecode_of_clean, pctDecode_of_clean]
      · intro c hc
        exact ⟨safe_ne_of ((hclean kv hkv).2 _ hc) (by decide),
          safe_ne_of ((hclean kv hkv).2 _ hc) (by decide)⟩
      · intro c hc
        exact ⟨safe_ne_of ((hclean kv hkv).1 _ hc) (by decide),
          safe_ne_of ((hclean kv hkv).1 _ hc) (by decide)⟩
    rw [List.map_congr_left this, List.map_id]
  · intro a ha
    obtain ⟨kv, hkv, rfl⟩ := List.mem_map.mp ha
    simp

lemma takeWhile_all {p : Char → Bool} {l : List Char} (h : ∀ x ∈ l, p x = true) :
    l.takeWhile p = l := by
  induction l with
  | nil => rfl
  | cons c t ih =>
    simp only [List.takeWhile_cons, h c (by simp)]
    simp [ih (fun x hx => h x (by simp [hx]))]

lemma dropWhile_all {p : Char → Bool} {l : List Char} (h : ∀ x ∈ l, p x = true) :
    l.dropWhile p = [] := by
  induction l with
  | nil => rfl
  | cons c t ih =>
    simp only [List.dropWhile_cons, h c (by simp)]
    simp [ih (fun x hx => h x (by simp [hx]))]

/-- Char-by-char ASCII bound for the scheme literals. -/
lemma mem_http_lt_128 {c : Char} (h : c ∈ ("http".toList : List Char) ∨ c ∈ ("https".toList : List Char)) :
    c.toNat < 128 := by
  have h' : c ∈ (['h', 't', 't', 'p'] : List Char) ∨ c ∈ (['h', 't', 't', 'p', 's'] : List Char) := h
  rcases h' with h' | h' <;> simp only [List.mem_cons, List.not_mem_nil, or_false] at h' <;>
    rcases h' with rfl | rfl | rfl | rfl | rfl <;> decide

/-- The parse of a printed URL whose pieces have the canonical shape,
stated for an arbitrary trailing query-plus-fragment chunk `qp`. -/
lemma parseUrl_spine (scheme host pt qp : List Char)
    (hs : scheme = "http".toList ∨ scheme = "https".toList)
    (hh1 : host ≠ [])
    (hhost : ∀ c ∈ host, (!(c == '/' || c == '?' || c == '#')) = true)
    (hha : ∀ c ∈ host, c.toNat < 128)
    (hpath : ∀ c ∈ pt, (!(c == '?' || c == '#')) = true)
    (hpa : ∀ c ∈ pt, c.toNat < 128)
    (hqp : ∀ c ∈ qp, c.toNat < 128)
    (hqtw : qp.takeWhile (fun c => !(c == '?' || c == '#')) = []) :
    Neuro.parseUrl (scheme ++ ':' :: '/' :: '/' :: (host ++ '/' :: (pt ++ qp)))
      = some { scheme := scheme, host := host, path := '/' :: pt
               query := if qp.head? = some '?' then
                   some ((qp.drop 1).takeWhile (· ≠ '#')) else none
               fragment :=
                 if (if qp.head? = some '?' then (qp.drop 1).dropWhile (· ≠ '#') else qp).head?
                     = some '#' then
                   some ((if qp.head? = some '?' then (qp.drop 1).dropWhile (· ≠ '#')
                     else qp).drop 1)
                 else none } := by
  have hsch_ne : ∀ c ∈ scheme, (decide (c ≠ ':')) = true := by
    rcases hs with rfl | rfl <;> decide
  have hascii : ((scheme ++ ':' :: '/' :: '/' :: (host ++ '/' :: (pt ++ qp))).all
      (fun c => decide (c.toNat < 128))) = true := by
    rw [List.all_eq_true]
    intro c hc
    simp only [List.mem_append, List.mem_cons] at hc
    refine decide_eq_true ?_
    rcases hc with hc | rfl | rfl | rfl | hc | rfl | hc
    · refine mem_http_lt_128 ?_
      rcases hs with rfl | rfl
      · exact .inl hc
      · exact .inr hc
    · decide
    · decide
    · decide
    · exact hha c hc
    · decide
    · rcases hc with hc | hc
      · exact hpa c hc
      · exact hqp c hc
  have e1 : (scheme ++ ':' :: '/' :: '/' :: (host ++ '/' :: (pt ++ qp))).takeWhile
      (fun c => decide (c ≠ ':')) = scheme := by
    rw [takeWhile_append_all hsch_ne]
    simp [List.takeWhile_cons]
  have e2 : (scheme ++ ':' :: '/' :: '/' :: (host ++ '/' :: (pt ++ qp))).drop scheme.length
      = ':' :: '/' :: '/' :: (host ++ '/' :: (pt ++ qp)) := List.drop_left _ _
  have e3 : (host ++ '/' :: (pt ++ qp)).takeWhile (fun c => !(c == '/' || c == '?' || c == '#'))
      = host := by
    rw [takeWhile_append_all hhost]
    simp [List.takeWhile_cons]
  have e4 : (host ++ '/' :: (pt ++ qp)).drop host.length = '/' :: (pt ++ qp) :=
    List.drop_left _ _
  have e5 : ('/' :: (pt ++ qp)).takeWhile (fun c => !(c == '?' || c == '#')) = '/' :: pt := by
    simp only [List.takeWhile_cons]
    rw [if_pos (by decide)]
    rw [takeWhile_append_all hpath, hqtw, List.append_nil]
  have e6 : ('/' :: (pt ++ qp)).drop ('/' :: pt).length = qp := by
    simp only [List.length_cons, List.drop_succ_cons]
    exact List.drop_left _ _
  have hguard : scheme ≠ [] ∧ scheme.all Char.isAlpha ∧
      (Neuro.lowerStr scheme = "http".toList ∨ Neuro.lowerStr scheme = "https".toList) := by
    rcases hs with rfl | rfl <;> exact ⟨by decide, by decide, by decide⟩
  simp only [Neuro.parseUrl, hascii, if_true, e1, e2]
  rw [if_pos hguard]
  simp only [e3, e4]
  rw [if_neg hh1]
  simp only [e5, e6]

/-- Re-parsing a printed URL recovers the components, for components of the
shape `canonicalize_url` produces: an `http(s)` scheme, a delimiter-free
host, a `/`-rooted path and a hash-free query. -/
lemma parseUrl_printUrl (scheme host pt : List Char) (query : Option (List Char))
    (hs : scheme = "http".toList ∨ scheme = "https".toList)
    (hh1 : host ≠ [])
    (hhost : ∀ c ∈ host, (!(c == '/' || c == '?' || c == '#')) = true)
    (hha : ∀ c ∈ host, c.toNat < 128)
    (hpath : ∀ c ∈ pt, (!(c == '?' || c == '#')) = true)
    (hpa : ∀ c ∈ pt, c.toNat < 128)
    (hq : ∀ q, query = some q → ('#' ∉ q ∧ ∀ c ∈ q, c.toNat < 128)) :
    Neuro.parseUrl (Neuro.printUrl ⟨scheme, host, '/' :: pt, query, none⟩)
      = some ⟨scheme, host, '/' :: pt, query, none⟩ := by
  rcases query with _ | q
  · have hprint : Neuro.printUrl ⟨scheme, host, '/' :: pt, none, none⟩
        = scheme ++ ':' :: '/' :: '/' :: (host ++ '/' :: (pt ++ [])) := by
      simp [Neuro.printUrl, List.append_assoc]
    rw [hprint, parseUrl_spine scheme host pt [] hs hh1 hhost hha hpath hpa
      (by simp) (by simp)]
    simp
  · have hprint : Neuro.printUrl ⟨scheme, host, '/' :: pt, some q, none⟩
        = scheme ++ ':' :: '/' :: '/' :: (host ++ '/' :: (pt ++ ('?' :: q))) := by
      simp [Neuro.printUrl, List.append_assoc]
    have hq128 : ∀ c ∈ ('?' :: q), c.toNat < 128 := by
      intro c hc
      rcases List.mem_cons.mp hc with rfl | hc
      · decide
      · exact (hq q rfl).2 c hc
    have htw : ('?' :: q).takeWhile (fun c => !(c == '?' || c == '#')) = [] := by
      simp [List.takeWhile_cons]
    rw [hprint, parseUrl_spine scheme host pt ('?' :: q) hs hh1 hhost hha hpath hpa hq128 htw]
    have hqq : (('?' :: q).drop 1).takeWhile (· ≠ '#') = q :=
      takeWhile_all (fun x hx => decide_eq_true ((fun hne => (hq q rfl).1 (hne ▸ hx)) :
        x ≠ '#'))
    have hqd : (('?' :: q).drop 1).dropWhile (· ≠ '#') = [] :=
      dropWhile_all (fun x hx => decide_eq_true ((fun hne => (hq q rfl).1 (hne ▸ hx)) :
        x ≠ '#'))
    rw [if_pos (show ('?' :: q).head? = some '?' by simp), hqq, hqd]
    simp

lemma drop_length_takeWhile (p : Char → Bool) (l : List Char) :
    l.drop (l.takeWhile p).length = l.dropWhile p := by
  induction l with
  | nil => rfl
  | cons c t ih =>
    rw [List.takeWhile_cons, List.dropWhile_cons]
    by_cases hc : p c = true
    · simpa [hc] using ih
    · simp [hc]

lemma dropWhile_head_false {p : Char → Bool} {l : List Char} {a : Char} {t : List Char}
    (h : l.dropWhile p = a :: t) : p a = false := by
  induction l with
  | nil => simp at h
  | cons c l' ih =>
    rw [List.dropWhile_cons] at h
    by_cases hc : p c = true
    · exact ih (by simpa [hc] using h)
    · simp only [hc, if_false] at h
      cases h
      simpa using hc

/-- Structural facts guaranteed by a successful parse. -/
lemma parseUrl_elim {s : List Char} {p : Neuro.UrlParts} (h : Neuro.parseUrl s = some p) :
    (Neuro.lowerStr p.scheme = "http".toList ∨ Neuro.lowerStr p.scheme = "https".toList) ∧
    p.host ≠ [] ∧
    (∀ c ∈ p.host, (c == '/' || c == '?' || c == '#') = false) ∧
    (∀ c ∈ p.host, c.toNat < 128) ∧
    (p.path = [] ∨ ∃ pt, p.path = '/' :: pt) ∧
    (∀ c ∈ p.path, (c == '?' || c == '#') = false) ∧
    (∀ c ∈ p.path, c.toNat < 128) := by
  simp only [Neuro.parseUrl] at h
  split at h
  case isFalse => simp at h
  case isTrue hascii =>
  split at h
  case isFalse => simp at h
  case isTrue hguard =>
  split at h
  case h_2 => simp at h
  case h_1 r2 heq =>
  split at h
  case isTrue => simp at h
  case isFalse hh1 =>
  rw [Option.some_inj] at h
  subst h
  have hsub2 : r2 ⊆ s := by
    intro c hc
    exact List.drop_subset _ s (heq ▸ (by simp [hc] : c ∈ ':' :: '/' :: '/' :: r2))
  have hr2ascii : ∀ c ∈ r2, c.toNat < 128 := by
    intro c hc
    simpa using List.all_eq_true.mp hascii c (hsub2 hc)
  refine ⟨hguard.2.2, hh1, ?_, ?_, ?_, ?_, ?_⟩
  · intro c hc
    have := List.mem_takeWhile_imp hc
    simpa using this
  · intro c hc
    exact hr2ascii c (List.takeWhile_subset _ hc)
  · rw [drop_length_takeWhile]
    cases hdw : r2.dropWhile (fun c => !(c == '/' || c == '?' || c == '#')) with
    | nil => simp
    | cons a t =>
      have ha := dropWhile_head_false hdw
      have ha' : (a = '/' ∨ a = '?') ∨ a = '#' := by
        have hb : (a == '/' || a == '?' || a == '#') = true := by
          cases hx : (a == '/' || a == '?' || a == '#') <;> simp [hx] at ha ⊢
        simpa using hb
      rcases ha' with (rfl | rfl) | rfl
      · right
        refine ⟨List.takeWhile (fun c => !(c == '?' || c == '#')) t, ?_⟩
        rw [List.takeWhile_cons, if_pos (by decide)]
      · left
        rw [List.takeWhile_cons, if_neg (by decide)]
      · left
        rw [List.takeWhile_cons, if_neg (by decide)]
  · intro c hc
    have := List.mem_takeWhile_imp hc
    simpa using this
  · intro c hc
    have hc2 : c ∈ r2 :=
      List.drop_subset _ r2 (List.takeWhile_subset _ hc)
    exact hr2ascii c hc2

/-- Every canonical pair descends from a decoded pair: its key is the
lower-cased decoded key, its value the decoded value, and the original key
is not a tracking parameter. -/
lemma mem_canonicalQueryPairs {q : Option (List Char)} {kv : List Char × List Char}
    (h : kv ∈ Neuro.canonicalQueryPairs q) :
    ∃ kv₀ ∈ Neuro.formUrlDecode (q.getD []),
      kv = (Neuro.lowerStr kv₀.1, kv₀.2) ∧ kv₀.1 ∉ Neuro.trackingParams := by
  unfold Neuro.canonicalQueryPairs at h
  rw [List.mem_insertionSort] at h
  obtain ⟨kv₀, hkv₀, rfl⟩ := List.mem_map.mp h
  obtain ⟨hmem, hf⟩ := List.mem_filter.mp hkv₀
  refine ⟨kv₀, hmem, rfl, ?_⟩
  simpa using hf

/-- The canonical pair list is sorted by key. -/
lemma sorted_canonicalQueryPairs (q : Option (List Char)) :
    (Neuro.canonicalQueryPairs q).Sorted
      (fun a b : List Char × List Char => a.1 ≤ b.1) :=
  List.sorted_insertionSort _ _

/-- A sorted list of already-canonical pairs (safe characters, lower-case
non-tracking keys) is a fixed point of the whole query pipeline. -/
lemma canonicalQueryPairs_joinPairs {pairs : List (List Char × List Char)}
    (hne : pairs ≠ [])
    (hclean : ∀ kv ∈ pairs,
      (∀ c ∈ kv.1, Neuro.safeChar c = true) ∧ (∀ c ∈ kv.2, Neuro.safeChar c = true))
    (hlow : ∀ kv ∈ pairs, Neuro.lowerStr kv.1 = kv.1)
    (htr : ∀ kv ∈ pairs, kv.1 ∉ Neuro.trackingParams)
    (hs : pairs.Sorted (fun a b : List Char × List Char => a.1 ≤ b.1)) :
    Neuro.canonicalQueryPairs (some (Neuro.joinPairs pairs)) = pairs := by
  simp only [Neuro.canonicalQueryPairs, Option.getD_some]
  rw [formUrlDecode_joinPairs hne hclean]
  rw [List.filter_eq_self.mpr]
  · have hmap : pairs.map (fun kv => (Neuro.lowerStr kv.1, kv.2)) = pairs := by
      have he : ∀ kv ∈ pairs, (Neuro.lowerStr kv.1, kv.2) = id kv := by
        intro kv hkv
        simp [hlow kv hkv]
      rw [List.map_congr_left he, List.map_id]
    rw [hmap]
    exact hs.insertionSort_eq
  · intro kv hkv
    simpa using htr kv hkv

/-- Lower-casing distributes over `intercalate ['&']`. -/
lemma lowerStr_intercalate (items : List (List Char)) :
    Neuro.lowerStr (List.intercalate ['&'] items)
      = List.intercalate ['&'] (items.map Neuro.lowerStr) := by
  induction items with
  | nil => rfl
  | cons a rest ih =>
    rcases rest with _ | ⟨b, t⟩
    · simp [intercalate_single]
    · rw [intercalate_cons₂, List.map_cons]
      rw [show (Neuro.lowerStr a :: (b :: t).map Neuro.lowerStr)
          = Neuro.lowerStr a :: Neuro.lowerStr b :: t.map Neuro.lowerStr from by simp]
      rw [intercalate_cons₂, lowerStr_append, lowerStr_append, ih]
      rw [show Neuro.lowerStr ['&'] = ['&'] from by decide]
      simp

/-- Lower-casing distributes over the rebuilt query string. -/
lemma lowerStr_joinPairs (pairs : List (List Char × List Char)) :
    Neuro.lowerStr (Neuro.joinPairs pairs)
      = Neuro.joinPairs (pairs.map (fun kv => (Neuro.lowerStr kv.1, Neuro.lowerStr kv.2))) := by
  rw [Neuro.joinPairs, Neuro.joinPairs, lowerStr_intercalate, List.map_map, List.map_map]
  congr 1
  refine List.map_congr_left ?_
  intro kv _
  simp only [Function.comp_apply]
  rw [lowerStr_append]
  rfl

/-- Lower-casing the printed URL lower-cases each component. -/
lemma lowerStr_printUrl (p : Neuro.UrlParts) :
    Neuro.lowerStr (Neuro.printUrl p) = Neuro.printUrl (Neuro.lowerParts p) := by
  obtain ⟨scheme, host, path, query, fragment⟩ := p
  have h0 : Neuro.lowerStr "://".toList = "://".toList := by decide
  have hcons : ∀ (c : Char) (t : List Char),
      Neuro.lowerStr (c :: t) = c.toLower :: Neuro.lowerStr t := fun c t => rfl
  have h3 : Char.toLower '?' = '?' := by decide
  have h4 : Char.toLower '#' = '#' := by decide
  rcases query with _ | q <;> rcases fragment with _ | f <;>
    simp only [Neuro.printUrl, Neuro.lowerParts, Option.map_none', Option.map_some',
      lowerStr_append, h0, hcons, h3, h4] <;>
    simp [Neuro.lowerStr]

/-- Field-wise equality of URL components. -/
lemma urlParts_ext {a b : Neuro.UrlParts} (h1 : a.scheme = b.scheme)
    (h2 : a.host = b.host) (h3 : a.path = b.path) (h4 : a.query = b.query)
    (h5 : a.fragment = b.fragment) : a = b := by
  cases a
  cases b
  cases h1
  cases h2
  cases h3
  cases h4
  cases h5
  rfl

/-- Lower-casing turns a `beq`-false with a non-lower-case target into
another `beq`-false. -/
lemma beq_toLower_false {c d : Char} (hd : ¬(97 ≤ d.toNat ∧ d.toNat ≤ 122))
    (h : (c == d) = false) : (c.toLower == d) = false := by
  rw [beq_eq_false_iff_ne] at h ⊢
  intro he
  exact h (eq_of_toLower_eq hd he)

set_option maxHeartbeats 2000000 in
/-- C5 (amended): canonicalization is idempotent on URLs of the modelled
`http(s)` domain whose decoded query keys and values consist of safe
characters (ASCII alphanumerics and `-` `_` `.` `~`), and whose keys only
match a tracking parameter case-insensitively if they already equal one
(the counterexample shows this restriction is forced: an upper-case
`UTM_SOURCE` key survives the first pass and is dropped by the second;
literal `+`, `%`, `&` or `=` inside decoded keys or values break
idempotence through the decode/encode round-trip in the same way, which the
safe-character restriction excludes). -/
theorem c5_amended (u c : List Char)
    (hc : Neuro.canonicalize_url u = some c)
    (hsafe : ∀ kv ∈ Neuro.decodedPairs u,
      (∀ ch ∈ kv.1, Neuro.safeChar ch = true) ∧ (∀ ch ∈ kv.2, Neuro.safeChar ch = true))
    (htrack : ∀ kv ∈ Neuro.decodedPairs u,
      Neuro.lowerStr kv.1 ∈ Neuro.trackingParams → kv.1 ∈ Neuro.trackingParams) :
    Neuro.canonicalize_url c = some c := by
  rw [Neuro.canonicalize_url] at hc
  obtain ⟨p, hp, rfl⟩ := Option.map_eq_some'.mp hc
  have hpairs : Neuro.decodedPairs u = Neuro.formUrlDecode (p.query.getD []) := by
    rw [Neuro.decodedPairs, hp]
  rw [hpairs] at hsafe htrack
  obtain ⟨hsch, hh1, hh2, hha, hpathshape, hp2, hpa⟩ := parseUrl_elim hp
  -- facts about the sorted canonical pairs
  have hP : ∀ kv ∈ Neuro.canonicalQueryPairs p.query,
      (∀ ch ∈ kv.1, Neuro.safeChar ch = true) ∧
      (∀ ch ∈ kv.2, Neuro.safeChar ch = true) ∧ Neuro.lowerStr kv.1 = kv.1 ∧
      kv.1 ∉ Neuro.trackingParams := by
    intro kv hkv
    obtain ⟨kv₀, hkv₀, rfl, htr₀⟩ := mem_canonicalQueryPairs hkv
    obtain ⟨hk₀, hv₀⟩ := hsafe kv₀ hkv₀
    refine ⟨?_, hv₀, lowerStr_idem _, ?_⟩
    · intro ch hch
      obtain ⟨ch₀, hch₀, rfl⟩ := List.mem_map.mp hch
      exact safe_toLower (hk₀ ch₀ hch₀)
    · intro hmem
      have hmem' : Neuro.lowerStr kv₀.1 ∈ Neuro.trackingParams := by
        simpa [lowerStr_idem] using hmem
      exact htr₀ (htrack kv₀ hkv₀ hmem')
  have hQchars : ∀ ch ∈ Neuro.joinPairs (Neuro.canonicalQueryPairs p.query),
      Neuro.safeChar ch = true ∨ ch = '&' ∨ ch = '=' := by
    intro ch hch
    rcases mem_joinPairs hch with rfl | rfl | ⟨kv, hkv, hm | hm⟩
    · exact .inr (.inl rfl)
    · exact .inr (.inr rfl)
    · exact .inl ((hP kv hkv).1 ch hm)
    · exact .inl ((hP kv hkv).2.1 ch hm)
  have hQenc : Neuro.encodeQuery (Neuro.joinPairs (Neuro.canonicalQueryPairs p.query))
      = Neuro.joinPairs (Neuro.canonicalQueryPairs p.query) := by
    refine encodeQuery_of_safe ?_
    intro ch hch
    rcases hQchars ch hch with h | rfl | rfl
    · exact safe_needsQueryEncode h
    · decide
    · decide
  -- the lowered canonical pairs
  have hlowQ : Neuro.lowerStr (Neuro.joinPairs (Neuro.canonicalQueryPairs p.query))
      = Neuro.joinPairs ((Neuro.canonicalQueryPairs p.query).map
          (fun kv => (kv.1, Neuro.lowerStr kv.2))) := by
    rw [lowerStr_joinPairs]
    congr 1
    refine List.map_congr_left ?_
    intro kv hkv
    rw [(hP kv hkv).2.2.1]
  have hlowP : ∀ kv ∈ (Neuro.canonicalQueryPairs p.query).map
        (fun kv => (kv.1, Neuro.lowerStr kv.2)),
      (∀ ch ∈ kv.1, Neuro.safeChar ch = true) ∧
      (∀ ch ∈ kv.2, Neuro.safeChar ch = true) ∧ Neuro.lowerStr kv.1 = kv.1 ∧
      kv.1 ∉ Neuro.trackingParams := by
    intro kv hkv
    obtain ⟨kv₀, hkv₀, rfl⟩ := List.mem_map.mp hkv
    obtain ⟨h1, h2, h3, h4⟩ := hP kv₀ hkv₀
    refine ⟨h1, ?_, h3, h4⟩
    intro ch hch
    obtain ⟨ch₀, hch₀, rfl⟩ := List.mem_map.mp hch
    exact safe_toLower (h2 ch₀ hch₀)
  have hlowsorted : (((Neuro.canonicalQueryPairs p.query).map
        (fun kv => (kv.1, Neuro.lowerStr kv.2)))).Sorted
      (fun a b : List Char × List Char => a.1 ≤ b.1) := by
    have hs0 := sorted_canonicalQueryPairs p.query
    rw [List.Sorted, List.pairwise_map]
    exact hs0
  have hlowQchars : ∀ ch ∈ Neuro.joinPairs ((Neuro.canonicalQueryPairs p.query).map
        (fun kv => (kv.1, Neuro.lowerStr kv.2))),
      Neuro.safeChar ch = true ∨ ch = '&' ∨ ch = '=' := by
    intro ch hch
    rcases mem_joinPairs hch with rfl | rfl | ⟨kv, hkv, hm | hm⟩
    · exact .inr (.inl rfl)
    · exact .inr (.inr rfl)
    · exact .inl ((hlowP kv hkv).1 ch hm)
    · exact .inl ((hlowP kv hkv).2.1 ch hm)
  have hlowQenc : Neuro.encodeQuery (Neuro.joinPairs ((Neuro.canonicalQueryPairs p.query).map
        (fun kv => (kv.1, Neuro.lowerStr kv.2))))
      = Neuro.joinPairs ((Neuro.canonicalQueryPairs p.query).map
        (fun kv => (kv.1, Neuro.lowerStr kv.2))) := by
    refine encodeQuery_of_safe ?_
    intro ch hch
    rcases hlowQchars ch hch with h | rfl | rfl
    · exact safe_needsQueryEncode h
    · decide
    · decide
  -- path of the canonical URL
  obtain ⟨pt, hpt, hptQ, hptA⟩ : ∃ pt, (if p.path = [] then ['/'] else p.path) = '/' :: pt ∧
      (∀ ch ∈ pt, (ch == '?' || ch == '#') = false) ∧ (∀ ch ∈ pt, ch.toNat < 128) := by
    rcases hpathshape with hnil | ⟨pt₀, hpt₀⟩
    · rw [hnil]
      exact ⟨[], rfl, by simp, by simp⟩
    · rw [if_neg (by simp [hpt₀]), hpt₀]
      exact ⟨pt₀, rfl, fun ch hch => hp2 ch (by simp [hpt₀, hch]),
        fun ch hch => hpa ch (by simp [hpt₀, hch])⟩
  have hlowpath : Neuro.lowerStr (if p.path = [] then ['/'] else p.path)
      = '/' :: Neuro.lowerStr pt := by
    rw [hpt]
    rw [show Neuro.lowerStr ('/' :: pt) = Char.toLower '/' :: Neuro.lowerStr pt from rfl]
    rw [show Char.toLower '/' = '/' from by decide]
  -- hypotheses for re-parsing, on the lower-cased components
  have hh1' : Neuro.lowerStr p.host ≠ [] := by
    intro h
    exact hh1 (by simpa [Neuro.lowerStr] using h)
  have hhost' : ∀ ch ∈ Neuro.lowerStr p.host, (!(ch == '/' || ch == '?' || ch == '#')) = true := by
    intro ch hch
    obtain ⟨c₀, hc₀, rfl⟩ := List.mem_map.mp hch
    have h0 := hh2 c₀ hc₀
    rw [Bool.or_eq_false_iff] at h0
    obtain ⟨h01, h03⟩ := h0
    rw [Bool.or_eq_false_iff] at h01
    obtain ⟨h01, h02⟩ := h01
    have e1 := beq_toLower_false (by decide) h01
    have e2 := beq_toLower_false (by decide) h02
    have e3 := beq_toLower_false (by decide) h03
    simp [e1, e2, e3]
  have hha' : ∀ ch ∈ Neuro.lowerStr p.host, ch.toNat < 128 := by
    intro ch hch
    obtain ⟨c₀, hc₀, rfl⟩ := List.mem_map.mp hch
    exact toLower_toNat_lt (hha c₀ hc₀)
  have hptQ' : ∀ ch ∈ Neuro.lowerStr pt, (!(ch == '?' || ch == '#')) = true := by
    intro ch hch
    obtain ⟨c₀, hc₀, rfl⟩ := List.mem_map.mp hch
    have h0 := hptQ c₀ hc₀
    rw [Bool.or_eq_false_iff] at h0
    have e1 := beq_toLower_false (by decide) h0.1
    have e2 := beq_toLower_false (by decide) h0.2
    simp [e1, e2]
  have hptA' : ∀ ch ∈ Neuro.lowerStr pt, ch.toNat < 128 := by
    intro ch hch
    obtain ⟨c₀, hc₀, rfl⟩ := List.mem_map.mp hch
    exact toLower_toNat_lt (hptA c₀ hc₀)
  rw [lowerStr_printUrl]
  by_cases hqe : Neuro.canonicalQueryPairs p.query = []
  · -- no query survives
    have hp'eq : Neuro.lowerParts (Neuro.canonicalParts p)
        = ⟨Neuro.lowerStr p.scheme, Neuro.lowerStr p.host, '/' :: Neuro.lowerStr pt,
            none, none⟩ := by
      refine urlParts_ext ?_ ?_ ?_ ?_ ?_
      · rfl
      · rfl
      · show Neuro.lowerStr (if p.path = [] then ['/'] else p.path) = '/' :: Neuro.lowerStr pt
        exact hlowpath
      · show ((Neuro.canonicalParts p).query).map Neuro.lowerStr = none
        simp [Neuro.canonicalParts, hqe]
      · rfl
    rw [hp'eq]
    have hparse := parseUrl_printUrl (Neuro.lowerStr p.scheme) (Neuro.lowerStr p.host)
      (Neuro.lowerStr pt) none (by simpa [lowerStr_idem] using hsch) hh1' hhost' hha'
      hptQ' hptA' (fun q hq => by simp at hq)
    rw [Neuro.canonicalize_url, hparse, Option.map_some']
    have hcpX : Neuro.canonicalParts ⟨Neuro.lowerStr p.scheme, Neuro.lowerStr p.host,
        '/' :: Neuro.lowerStr pt, none, none⟩
        = ⟨Neuro.lowerStr p.scheme, Neuro.lowerStr p.host, '/' :: Neuro.lowerStr pt,
            none, none⟩ := by
      refine urlParts_ext rfl rfl ?_ ?_ rfl
      · show (if ('/' :: Neuro.lowerStr pt : List Char) = [] then ['/']
            else '/' :: Neuro.lowerStr pt) = '/' :: Neuro.lowerStr pt
        simp
      · show (if (Neuro.canonicalQueryPairs none).isEmpty then none
            else some (Neuro.encodeQuery (Neuro.joinPairs (Neuro.canonicalQueryPairs none))))
            = none
        decide
    rw [hcpX, lowerStr_printUrl]
    have hlpX : Neuro.lowerParts ⟨Neuro.lowerStr p.scheme, Neuro.lowerStr p.host,
        '/' :: Neuro.lowerStr pt, none, none⟩
        = ⟨Neuro.lowerStr p.scheme, Neuro.lowerStr p.host, '/' :: Neuro.lowerStr pt,
            none, none⟩ := by
      refine urlParts_ext ?_ ?_ ?_ rfl rfl
      · exact lowerStr_idem _
      · exact lowerStr_idem _
      · show Neuro.lowerStr ('/' :: Neuro.lowerStr pt) = '/' :: Neuro.lowerStr pt
        rw [show Neuro.lowerStr ('/' :: Neuro.lowerStr pt)
            = Char.toLower '/' :: Neuro.lowerStr (Neuro.lowerStr pt) from rfl]
        rw [show Char.toLower '/' = '/' from by decide, lowerStr_idem]
    rw [hlpX]
  · -- the query survives as the lower-cased sorted pairs
    have hp'eq : Neuro.lowerParts (Neuro.canonicalParts p)
        = ⟨Neuro.lowerStr p.scheme, Neuro.lowerStr p.host, '/' :: Neuro.lowerStr pt,
            some (Neuro.joinPairs ((Neuro.canonicalQueryPairs p.query).map
              (fun kv => (kv.1, Neuro.lowerStr kv.2)))), none⟩ := by
      refine urlParts_ext ?_ ?_ ?_ ?_ ?_
      · rfl
      · rfl
      · show Neuro.lowerStr (if p.path = [] then ['/'] else p.path) = '/' :: Neuro.lowerStr pt
        exact hlowpath
      · show ((Neuro.canonicalParts p).query).map Neuro.lowerStr = _
        have hempty : (Neuro.canonicalQueryPairs p.query).isEmpty = false := by
          simpa [List.isEmpty_iff] using hqe
        simp only [Neuro.canonicalParts, hempty, Bool.false_eq_true, if_false,
          Option.map_some']
        rw [hQenc, hlowQ]
      · rfl
    rw [hp'eq]
    have hlowv : ∀ kv ∈ (Neuro.canonicalQueryPairs p.query).map
        (fun kv => (kv.1, Neuro.lowerStr kv.2)), Neuro.lowerStr kv.2 = kv.2 := by
      intro kv hkv
      obtain ⟨kv₀, _, rfl⟩ := List.mem_map.mp hkv
      exact lowerStr_idem _
    have hqcond : ∀ q, (some (Neuro.joinPairs ((Neuro.canonicalQueryPairs p.query).map
        (fun kv => (kv.1, Neuro.lowerStr kv.2)))) : Option (List Char)) = some q →
        ('#' ∉ q ∧ ∀ ch ∈ q, ch.toNat < 128) := by
      intro q hq
      rw [Option.some_inj] at hq
      subst hq
      constructor
      · intro hmem
        rcases hlowQchars '#' hmem with h | h | h
        · exact safe_ne_of h (by decide) rfl
        · exact absurd h (by decide)
        · exact absurd h (by decide)
      · intro ch hch
        rcases hlowQchars ch hch with h | rfl | rfl
        · exact safe_lt_128 h
        · decide
        · decide
    have hparse := parseUrl_printUrl (Neuro.lowerStr p.scheme) (Neuro.lowerStr p.host)
      (Neuro.lowerStr pt)
      (some (Neuro.joinPairs ((Neuro.canonicalQueryPairs p.query).map
        (fun kv => (kv.1, Neuro.lowerStr kv.2)))))
      (by simpa [lowerStr_idem] using hsch) hh1' hhost' hha' hptQ' hptA' hqcond
    rw [Neuro.canonicalize_url, hparse, Option.map_some']
    have hne' : (Neuro.canonicalQueryPairs p.query).map
        (fun kv => (kv.1, Neuro.lowerStr kv.2)) ≠ [] := by
      simpa using hqe
    have hstab : Neuro.canonicalQueryPairs (some (Neuro.joinPairs
        ((Neuro.canonicalQueryPairs p.query).map (fun kv => (kv.1, Neuro.lowerStr kv.2)))))
        = (Neuro.canonicalQueryPairs p.query).map (fun kv => (kv.1, Neuro.lowerStr kv.2)) :=
      canonicalQueryPairs_joinPairs hne'
        (fun kv hkv => ⟨(hlowP kv hkv).1, (hlowP kv hkv).2.1⟩)
        (fun kv hkv => (hlowP kv hkv).2.2.1)
        (fun kv hkv => (hlowP kv hkv).2.2.2)
        hlowsorted
    have hcpX : Neuro.canonicalParts ⟨Neuro.lowerStr p.scheme, Neuro.lowerStr p.host,
        '/' :: Neuro.lowerStr pt,
        some (Neuro.joinPairs ((Neuro.canonicalQueryPairs p.query).map
          (fun kv => (kv.1, Neuro.lowerStr kv.2)))), none⟩
        = ⟨Neuro.lowerStr p.scheme, Neuro.lowerStr p.host, '/' :: Neuro.lowerStr pt,
            some (Neuro.joinPairs ((Neuro.canonicalQueryPairs p.query).map
              (fun kv => (kv.1, Neuro.lowerStr kv.2)))), none⟩ := by
      refine urlParts_ext rfl rfl ?_ ?_ rfl
      · show (if ('/' :: Neuro.lowerStr pt : List Char) = [] then ['/']
            else '/' :: Neuro.lowerStr pt) = '/' :: Neuro.lowerStr pt
        simp
      · show (if (Neuro.canonicalQueryPairs _).isEmpty then none
            else some (Neuro.encodeQuery (Neuro.joinPairs (Neuro.canonicalQueryPairs _)))) = _
        rw [hstab]
        rw [if_neg (by simpa [List.isEmpty_iff] using hne')]
        rw [hlowQenc]
    rw [hcpX, lowerStr_printUrl]
    have hlpX : Neuro.lowerParts ⟨Neuro.lowerStr p.scheme, Neuro.lowerStr p.host,
        '/' :: Neuro.lowerStr pt,
        some (Neuro.joinPairs ((Neuro.canonicalQueryPairs p.query).map
          (fun kv => (kv.1, Neuro.lowerStr kv.2)))), none⟩
        = ⟨Neuro.lowerStr p.scheme, Neuro.lowerStr p.host, '/' :: Neuro.lowerStr pt,
            some (Neuro.joinPairs ((Neuro.canonicalQueryPairs p.query).map
              (fun kv => (kv.1, Neuro.lowerStr kv.2)))), none⟩ := by
      refine urlParts_ext ?_ ?_ ?_ ?_ rfl
      · exact lowerStr_idem _
      · exact lowerStr_idem _
      · show Neuro.lowerStr ('/' :: Neuro.lowerStr pt) = '/' :: Neuro.lowerStr pt
        rw [show Neuro.lowerStr ('/' :: Neuro.lowerStr pt)
            = Char.toLower '/' :: Neuro.lowerStr (Neuro.lowerStr pt) from rfl]
        rw [show Char.toLower '/' = '/' from by decide, lowerStr_idem]
      · show Option.map Neuro.lowerStr (some (Neuro.joinPairs _)) = _
        rw [Option.map_some', Option.some_inj, lowerStr_joinPairs]
        have he : ∀ kv ∈ (Neuro.canonicalQueryPairs p.query).map
            (fun kv => (kv.1, Neuro.lowerStr kv.2)),
            (Neuro.lowerStr kv.1, Neuro.lowerStr kv.2) = id kv := by
          intro kv hkv
          rw [(hlowP kv hkv).2.2.1, hlowv kv hkv]
          simp
        rw [List.map_congr_left he, List.map_id]
    rw [hlpX]


/-- C5 amended, witness: a mixed-case URL with safe query pairs whose
`utm_source` key is exactly lower-case; its canonical form re-canonicalizes
to itself. -/
theorem c5_amended_witness :
    (Neuro.canonicalize_url "https://Ex.com/Path?B=2&a=1&utm_source=x".toList
      = some "https://ex.com/path?a=1&b=2".toList) ∧
    (∀ kv ∈ Neuro.decodedPairs "https://Ex.com/Path?B=2&a=1&utm_source=x".toList,
      (∀ ch ∈ kv.1, Neuro.safeChar ch = true) ∧ (∀ ch ∈ kv.2, Neuro.safeChar ch = true)) ∧
    (∀ kv ∈ Neuro.decodedPairs "https://Ex.com/Path?B=2&a=1&utm_source=x".toList,
      Neuro.lowerStr kv.1 ∈ Neuro.trackingParams → kv.1 ∈ Neuro.trackingParams) ∧
    Neuro.canonicalize_url "https://ex.com/path?a=1&b=2".toList
      = some "https://ex.com/path?a=1&b=2".toList :=
  ⟨by decide, by decide, by decide,
    c5_amended "https://Ex.com/Path?B=2&a=1&utm_source=x".toList
      "https://ex.com/path?a=1&b=2".toList (by decide) (by decide) (by decide)⟩
